import Mathlib

/-!
Verification of the Nand2Tetris toolchain core (Hack assembler and VM
translator) against its natural-language specification.

Strings are modelled as `List Char`; a file is a list of raw lines (each
raw line keeps its trailing newline, as produced by `readline`; end of
file is the end of the list).  All definitions are transcribed from the
Python source (`HackAssembler.py`, `VMTranslator.py`); definitions whose
name starts with `spec` are transcribed from the specification's own
words and serve only to state claims.  The Hack CPU itself is not part of
the repository: its instruction semantics (`evalComp`, `runStraight`,
...) are modelled from the specification's section 6.2 and glossary,
with 16-bit words represented as integers reduced modulo 2^16.
-/

/-- Characters of a string literal, the representation of Python strings. -/
def chs (s : String) : List Char := s.data

/-- Python `str.strip()`: drop whitespace from both ends. -/
def trimChars (l : List Char) : List Char :=
  ((l.dropWhile Char.isWhitespace).reverse.dropWhile Char.isWhitespace).reverse

/-- Whether the line starts with the two characters `//`. -/
def startsWithSlashSlash : List Char → Bool
  | '/' :: '/' :: _ => true
  | _ => false

/-- Whether `//` occurs somewhere in the line (Python `"//" in line`). -/
def hasSlashSlash : List Char → Bool
  | [] => false
  | '/' :: '/' :: _ => true
  | _ :: rest => hasSlashSlash rest

/-- Python `line.split('//')[0]`: the text before the first `//`. -/
def beforeComment : List Char → List Char
  | [] => []
  | '/' :: '/' :: _ => []
  | c :: rest => c :: beforeComment rest

/-- Association-list lookup, the model of a Python dict access (keys are
inserted at most once, so first match equals dict lookup). -/
def lookupAL {α : Type} [DecidableEq α] {β : Type} : List (α × β) → α → Option β
  | [], _ => none
  | p :: rest, k => if p.1 = k then some p.2 else lookupAL rest k

/-- Python `str.isnumeric()` restricted to ASCII: nonempty and all digits. -/
def isNumericStr (s : List Char) : Bool := !s.isEmpty && s.all Char.isDigit

/-- Decimal value of a digit string, the model of Python `int(string)`. -/
def charsToNat (s : List Char) : Nat :=
  s.foldl (fun acc c => acc * 10 + (c.toNat - 48)) 0

/-- Python `str.split(sep)` for a one-character separator. -/
def splitOnChar (sep : Char) : List Char → List (List Char)
  | [] => [[]]
  | c :: rest =>
    match splitOnChar sep rest with
    | [] => if c = sep then [[], []] else [[c]]
    | h :: t => if c = sep then [] :: h :: t else (c :: h) :: t

/-- Lines produced by `HackAssembler.Parser.advance`, iterated to the end
of the stream.  A raw line starting with `//` or equal to a bare newline
is skipped; otherwise the line (clipped at `//` when present) is
stripped, and a line that strips to the empty string makes
`has_more_lines` report end of input, terminating the stream. -/
def asmLogicalLines : List (List Char) → List (List Char)
  | [] => []
  | l :: rest =>
    if startsWithSlashSlash l || l = ['\n'] then asmLogicalLines rest
    else
      let cur := if hasSlashSlash l then trimChars (beforeComment l) else trimChars l
      if cur.isEmpty then [] else cur :: asmLogicalLines rest

/-- Lines produced by `VMTranslator.Parser.advance`, iterated to the end
of the stream.  Unlike the assembler's parser it has no branch clipping
an inline `//` comment: any line that is not skipped is only stripped. -/
def vmLogicalLines : List (List Char) → List (List Char)
  | [] => []
  | l :: rest =>
    if startsWithSlashSlash l || l = ['\n'] then vmLogicalLines rest
    else
      let cur := trimChars l
      if cur.isEmpty then [] else cur :: vmLogicalLines rest

/-- Modelled from the spec (section 4.1 Line Source, missing as such from
the source): strip everything after `//` on each line, trim surrounding
whitespace, drop lines that become empty, and keep going to end of file. -/
def specLogicalLines (ls : List (List Char)) : List (List Char) :=
  (ls.map (fun l => trimChars (beforeComment l))).filter (fun l => !l.isEmpty)

/-- Instruction classification of `Parser.instruction_type`. -/
inductive IType where
  | aInstr : IType
  | cInstr : IType
  | lInstr : IType
  | noType : IType
deriving DecidableEq

/-- `Parser.instruction_type`: `@...` is an A-instruction; otherwise a
line containing `=` or `;` is a C-instruction; otherwise `(...` is an
L-instruction; anything else has no type (Python returns `None`). -/
def instrType (l : List Char) : IType :=
  match l with
  | '@' :: _ => IType.aInstr
  | _ =>
    if l.contains '=' || l.contains ';' then IType.cInstr
    else match l with
      | '(' :: _ => IType.lInstr
      | _ => IType.noType

/-- `Parser.symbol`: the operand of `@symbol` or the interior of
`(symbol)` (Python returns `None` on other lines; those callers never
use it, modelled as `[]`). -/
def symbolOf (l : List Char) : List Char :=
  match l with
  | '@' :: r => r
  | '(' :: r => r.dropLast
  | _ => []

/-- `Parser.comp`: the part after `=` when `=` occurs, else the part
before `;`. -/
def compOf (l : List Char) : List Char :=
  if l.contains '=' then ((splitOnChar '=' l).get? 1).getD []
  else ((splitOnChar ';' l).headD [])

/-- `Parser.dest`: the part before `=` when `=` occurs, else `null`. -/
def destOf (l : List Char) : List Char :=
  if l.contains '=' then (splitOnChar '=' l).headD [] else chs "null"

/-- `Parser.jump`: the part after `;` when `;` occurs, else `null`. -/
def jumpOf (l : List Char) : List Char :=
  if l.contains ';' then ((splitOnChar ';' l).get? 1).getD [] else chs "null"

/-- `to_binary`'s significant digits: `bin(n)` without the `0b` prefix. -/
def binDigits (n : Nat) : List Char := Nat.toDigits 2 n

/-- `to_binary`: the binary representation of `n`, left-padded with `'0'`
to at least 15 characters (the source's while loop pads, and never
truncates a longer representation). -/
def toBinary (n : Nat) : List Char :=
  List.replicate (15 - (binDigits n).length) '0' ++ binDigits n

/-- The predefined `Assembler.symbols` dictionary. -/
def predefTable : List (List Char × List Char) :=
  [(chs "SP", chs "000000000000000"),
   (chs "LCL", chs "000000000000001"),
   (chs "ARG", chs "000000000000010"),
   (chs "THIS", chs "000000000000011"),
   (chs "THAT", chs "000000000000100"),
   (chs "R0", chs "000000000000000"),
   (chs "R1", chs "000000000000001"),
   (chs "R2", chs "000000000000010"),
   (chs "R3", chs "000000000000011"),
   (chs "R4", chs "000000000000100"),
   (chs "R5", chs "000000000000101"),
   (chs "R6", chs "000000000000110"),
   (chs "R7", chs "000000000000111"),
   (chs "R8", chs "000000000001000"),
   (chs "R9", chs "000000000001001"),
   (chs "R10", chs "000000000001010"),
   (chs "R11", chs "000000000001011"),
   (chs "R12", chs "000000000001100"),
   (chs "R13", chs "000000000001101"),
   (chs "R14", chs "000000000001110"),
   (chs "R15", chs "000000000001111"),
   (chs "SCREEN", chs "100000000000000"),
   (chs "KBD", chs "110000000000000")]

/-- `Assembler.first_pass` over the stream of logical lines, carrying the
symbol dictionary and the line count.  An L-instruction whose label is
not yet in the dictionary binds it to `to_binary(line_count)`; every
other line (the source's bare `else`) increments the line count. -/
def firstPass : List (List Char) → List (List Char × List Char) → Nat →
    (List (List Char × List Char) × Nat)
  | [], t, rom => (t, rom)
  | l :: rest, t, rom =>
    if instrType l = IType.lInstr ∧ lookupAL t (symbolOf l) = none then
      firstPass rest (t ++ [(symbolOf l, toBinary rom)]) rom
    else
      firstPass rest t (rom + 1)

/-- The `CODE['comp']` dictionary of the source. -/
def compTable : List (List Char × List Char) :=
  [(chs "0", chs "0101010"),
   (chs "1", chs "0111111"),
   (chs "-1", chs "0111010"),
   (chs "D", chs "0001100"),
   (chs "A", chs "0110000"),
   (chs "!D", chs "0001101"),
   (chs "!A", chs "0110001"),
   (chs "-D", chs "0001111"),
   (chs "-A", chs "0110011"),
   (chs "D+1", chs "0011111"),
   (chs "A+1", chs "0110111"),
   (chs "D-1", chs "0001110"),
   (chs "A-1", chs "0110010"),
   (chs "D+A", chs "0000010"),
   (chs "D-A", chs "0010011"),
   (chs "A-D", chs "0000111"),
   (chs "D&A", chs "0000000"),
   (chs "D|A", chs "0010101"),
   (chs "M", chs "1110000"),
   (chs "!M", chs "1110001"),
   (chs "-M", chs "1110011"),
   (chs "M+1", chs "1110111"),
   (chs "M-1", chs "1110010"),
   (chs "D+M", chs "1000010"),
   (chs "D-M", chs "1010011"),
   (chs "M-D", chs "1000111"),
   (chs "D&M", chs "1000000"),
   (chs "D|M", chs "1010101")]

/-- The `CODE['dest']` dictionary of the source. -/
def destTable : List (List Char × List Char) :=
  [(chs "null", chs "000"),
   (chs "M", chs "001"),
   (chs "D", chs "010"),
   (chs "MD", chs "011"),
   (chs "A", chs "100"),
   (chs "AM", chs "101"),
   (chs "AD", chs "110"),
   (chs "AMD", chs "111")]

/-- The `CODE['jump']` dictionary of the source. -/
def jumpTable : List (List Char × List Char) :=
  [(chs "null", chs "000"),
   (chs "JGT", chs "001"),
   (chs "JEQ", chs "010"),
   (chs "JGE", chs "011"),
   (chs "JLT", chs "100"),
   (chs "JNE", chs "101"),
   (chs "JLE", chs "110"),
   (chs "JMP", chs "111")]

/-- The comp table of specification section 6.2, transcribed from the
spec's own text (used to state claims about the emitted bit patterns). -/
def specCompTable : List (List Char × List Char) :=
  [(chs "0", chs "0101010"),
   (chs "1", chs "0111111"),
   (chs "-1", chs "0111010"),
   (chs "D", chs "0001100"),
   (chs "A", chs "0110000"),
   (chs "M", chs "1110000"),
   (chs "!D", chs "0001101"),
   (chs "!A", chs "0110001"),
   (chs "!M", chs "1110001"),
   (chs "-D", chs "0001111"),
   (chs "-A", chs "0110011"),
   (chs "-M", chs "1110011"),
   (chs "D+1", chs "0011111"),
   (chs "A+1", chs "0110111"),
   (chs "M+1", chs "1110111"),
   (chs "D-1", chs "0001110"),
   (chs "A-1", chs "0110010"),
   (chs "M-1", chs "1110010"),
   (chs "D+A", chs "0000010"),
   (chs "D+M", chs "1000010"),
   (chs "D-A", chs "0010011"),
   (chs "D-M", chs "1010011"),
   (chs "A-D", chs "0000111"),
   (chs "M-D", chs "1000111"),
   (chs "D&A", chs "0000000"),
   (chs "D&M", chs "1000000"),
   (chs "D|A", chs "0010101"),
   (chs "D|M", chs "1010101")]

/-- The dest table of specification section 6.2. -/
def specDestTable : List (List Char × List Char) :=
  [(chs "null", chs "000"),
   (chs "M", chs "001"),
   (chs "D", chs "010"),
   (chs "MD", chs "011"),
   (chs "A", chs "100"),
   (chs "AM", chs "101"),
   (chs "AD", chs "110"),
   (chs "AMD", chs "111")]

/-- The jump table of specification section 6.2. -/
def specJumpTable : List (List Char × List Char) :=
  [(chs "null", chs "000"),
   (chs "JGT", chs "001"),
   (chs "JEQ", chs "010"),
   (chs "JGE", chs "011"),
   (chs "JLT", chs "100"),
   (chs "JNE", chs "101"),
   (chs "JLE", chs "110"),
   (chs "JMP", chs "111")]

/-- `Assembler.second_pass` over the stream of logical lines, returning
the emitted lines together with the final symbol dictionary and variable
count, or `none` when the Python program would die with a `KeyError`
(an unrecognized C-instruction mnemonic).  A-instructions with a numeric
operand emit its binary word; symbolic operands not in the dictionary
are bound to `to_binary(variable_count + 16)` first; L-instructions and
untyped lines emit nothing. -/
def secondPass : List (List Char) → List (List Char × List Char) → Nat →
    Option (List (List Char) × List (List Char × List Char) × Nat)
  | [], t, vc => some ([], t, vc)
  | l :: rest, t, vc =>
    match instrType l with
    | IType.aInstr =>
      let s := symbolOf l
      if isNumericStr s then
        (secondPass rest t vc).map (fun r => (('0' :: toBinary (charsToNat s)) :: r.1, r.2))
      else
        match lookupAL t s with
        | some addr => (secondPass rest t vc).map (fun r => (('0' :: addr) :: r.1, r.2))
        | none =>
          let addr := toBinary (vc + 16)
          (secondPass rest (t ++ [(s, addr)]) (vc + 1)).map
            (fun r => (('0' :: addr) :: r.1, r.2))
    | IType.cInstr =>
      match lookupAL compTable (compOf l), lookupAL destTable (destOf l),
          lookupAL jumpTable (jumpOf l) with
      | some cc, some dc, some jc =>
        (secondPass rest t vc).map
          (fun r => (('1' :: '1' :: '1' :: (cc ++ dc ++ jc)) :: r.1, r.2))
      | _, _, _ => none
    | _ => secondPass rest t vc

/-- Count of real (A- or C-type) lines, the specification's ROM index
(used to state what the first pass is claimed to bind labels to). -/
def romCount (ls : List (List Char)) : Nat :=
  (ls.filter (fun l => instrType l = IType.aInstr || instrType l = IType.cInstr)).length

/-- Count of lines that emit an output word in the second pass. -/
def emitCount (ls : List (List Char)) : Nat := romCount ls

/-- Fresh symbolic A-instruction operands in order of first occurrence:
the operands of non-numeric A-lines that are not bound in the table nor
seen earlier in the list (stated apparatus for the variable-allocation
order; the dummy binding only marks the name as taken). -/
def freshSymbols : List (List Char × List Char) → List (List Char) → List (List Char)
  | _, [] => []
  | t, l :: rest =>
    if instrType l = IType.aInstr ∧ isNumericStr (symbolOf l) = false ∧
        lookupAL t (symbolOf l) = none then
      symbolOf l :: freshSymbols (t ++ [(symbolOf l, [])]) rest
    else
      freshSymbols t rest

/-- Reduction of a word to 16 bits (unsigned representative), modelled
from the spec's 16-bit machine; `Int.emod` keeps the value in
`[0, 65536)`. -/
def w16 (x : Int) : Int := x % 65536

/-- Signed reading of a 16-bit word (two's complement), used by the jump
conditions. -/
def signed16 (v : Int) : Int := if w16 v < 32768 then w16 v else w16 v - 65536

/-- State of the Hack CPU and RAM, modelled from the spec's glossary:
registers A and D, and memory `M = RAM[A]`. -/
structure Mach where
  a : Int
  d : Int
  ram : Int → Int

/-- Pointwise update of the RAM. -/
def upd (r : Int → Int) (i v : Int) : Int → Int := fun j => if j = i then v else r j

/-- ALU semantics of a comp mnemonic, modelled from spec section 6.2:
the computed 16-bit word from registers `a`, `d`, and `m = RAM[A]`. -/
def evalComp (c : List Char) (a d m : Int) : Option Int :=
  if c = chs "0" then some 0
  else if c = chs "1" then some 1
  else if c = chs "-1" then some (w16 (-1))
  else if c = chs "D" then some (w16 d)
  else if c = chs "A" then some (w16 a)
  else if c = chs "M" then some (w16 m)
  else if c = chs "!D" then some (65535 - w16 d)
  else if c = chs "!A" then some (65535 - w16 a)
  else if c = chs "!M" then some (65535 - w16 m)
  else if c = chs "-D" then some (w16 (-d))
  else if c = chs "-A" then some (w16 (-a))
  else if c = chs "-M" then some (w16 (-m))
  else if c = chs "D+1" then some (w16 (d + 1))
  else if c = chs "A+1" then some (w16 (a + 1))
  else if c = chs "M+1" then some (w16 (m + 1))
  else if c = chs "D-1" then some (w16 (d - 1))
  else if c = chs "A-1" then some (w16 (a - 1))
  else if c = chs "M-1" then some (w16 (m - 1))
  else if c = chs "D+A" then some (w16 (d + a))
  else if c = chs "D+M" then some (w16 (d + m))
  else if c = chs "D-A" then some (w16 (d - a))
  else if c = chs "D-M" then some (w16 (d - m))
  else if c = chs "A-D" then some (w16 (a - d))
  else if c = chs "M-D" then some (w16 (m - d))
  else if c = chs "D&A" then some (((w16 d).toNat &&& (w16 a).toNat : Nat) : Int)
  else if c = chs "D&M" then some (((w16 d).toNat &&& (w16 m).toNat : Nat) : Int)
  else if c = chs "D|A" then some (((w16 d).toNat ||| (w16 a).toNat : Nat) : Int)
  else if c = chs "D|M" then some (((w16 d).toNat ||| (w16 m).toNat : Nat) : Int)
  else none

/-- Jump condition of a C-instruction on the computed value, modelled
from spec section 6.2 (signed comparison against zero). -/
def jumpTaken (j : List Char) (v : Int) : Bool :=
  if j = chs "JGT" then decide (0 < signed16 v)
  else if j = chs "JEQ" then decide (signed16 v = 0)
  else if j = chs "JGE" then decide (0 ≤ signed16 v)
  else if j = chs "JLT" then decide (signed16 v < 0)
  else if j = chs "JNE" then decide (¬signed16 v = 0)
  else if j = chs "JLE" then decide (signed16 v ≤ 0)
  else if j = chs "JMP" then true
  else false

/-- A parsed Hack instruction: load a value into A, or a C-instruction
given by its dest, comp, and jump mnemonics. -/
inductive HInstr where
  | aLoad : Int → HInstr
  | cmd : List Char → List Char → List Char → HInstr
deriving DecidableEq

/-- Predefined symbols resolved when parsing an emitted `@symbol` line
(the addresses the downstream assembler would assign, spec section 6.4). -/
def predefAddrs : List (List Char × Int) :=
  [(chs "SP", 0), (chs "LCL", 1), (chs "ARG", 2), (chs "THIS", 3), (chs "THAT", 4),
   (chs "R13", 13), (chs "R14", 14), (chs "R15", 15)]

/-- Parse one line of emitted Hack assembly (modelled from spec sections
4.2 and 6.2); label pseudo-instructions and unresolvable symbols are
rejected, since the fragments executed here are straight-line. -/
def parseHack (l : List Char) : Option HInstr :=
  match l with
  | '@' :: s =>
    if isNumericStr s then some (HInstr.aLoad ((charsToNat s : Nat) : Int))
    else (lookupAL predefAddrs s).map HInstr.aLoad
  | '(' :: _ => none
  | _ =>
    let ds := if l.contains '=' then (splitOnChar '=' l).headD [] else []
    let rest := if l.contains '=' then ((splitOnChar '=' l).get? 1).getD [] else l
    let cc := if rest.contains ';' then (splitOnChar ';' rest).headD [] else rest
    let jj := if rest.contains ';' then ((splitOnChar ';' rest).get? 1).getD [] else []
    some (HInstr.cmd ds cc jj)

/-- Map a fallible parser over a list, failing if any element fails. -/
def mapOpt {α β : Type} (f : α → Option β) : List α → Option (List β)
  | [] => some []
  | x :: xs =>
    match f x, mapOpt f xs with
    | some y, some ys => some (y :: ys)
    | _, _ => none

/-- Parse a whole emitted assembly string into instructions, one per
nonempty line. -/
def parseProg (s : List Char) : Option (List HInstr) :=
  mapOpt parseHack ((splitOnChar '\n' s).filter (fun l => !l.isEmpty))

/-- Execute straight-line Hack code: each C-instruction computes its
value, writes its destinations (the M destination writes `RAM[A]` at the
pre-instruction A), and a taken jump stops execution, yielding the jump
target (the A register).  Returns `none` on an unrecognized comp. -/
def runStraight : List HInstr → Mach → Option (Mach × Option Int)
  | [], m => some (m, none)
  | HInstr.aLoad v :: rest, m => runStraight rest ⟨v, m.d, m.ram⟩
  | HInstr.cmd ds c j :: rest, m =>
    match evalComp c m.a m.d (m.ram m.a) with
    | none => none
    | some v =>
      let r2 := if ds.contains 'M' then upd m.ram m.a v else m.ram
      let a2 := if ds.contains 'A' then v else m.a
      let d2 := if ds.contains 'D' then v else m.d
      if jumpTaken j v then some (⟨a2, d2, r2⟩, some m.a)
      else runStraight rest ⟨a2, d2, r2⟩

/-- Result of a straight-line run, with the unreachable failure case
defaulted (the theorems also assert the run succeeds). -/
def runResult (p : List HInstr) (m : Mach) : Mach × Option Int :=
  (runStraight p m).getD (m, none)

/-- Decimal digit character, as produced by Python `str(int)`. -/
def digitChr (n : Nat) : Char :=
  match n with
  | 0 => '0' | 1 => '1' | 2 => '2' | 3 => '3' | 4 => '4'
  | 5 => '5' | 6 => '6' | 7 => '7' | 8 => '8' | _ => '9'

/-- Decimal digits of `n`, most significant first (fuel-driven so that it
reduces; `n + 1` units of fuel always suffice). -/
def decDigitsF : Nat → Nat → List Char
  | 0, _ => []
  | fuel + 1, n => if n < 10 then [digitChr n] else decDigitsF fuel (n / 10) ++ [digitChr (n % 10)]

/-- Python `str(n)` for a natural number. -/
def natToDec (n : Nat) : List Char := decDigitsF (n + 1) n

/-- Python `str.replace(pat, rep)` (fuel-driven; one unit of fuel per
consumed character always suffices): replace non-overlapping occurrences
left to right. -/
def replaceAllF : Nat → List Char → List Char → List Char → List Char
  | 0, _, _, l => l
  | _ + 1, _, _, [] => []
  | fuel + 1, pat, rep, c :: rest =>
    if !pat.isEmpty && pat.isPrefixOf (c :: rest) then
      rep ++ replaceAllF fuel pat rep ((c :: rest).drop pat.length)
    else
      c :: replaceAllF fuel pat rep rest

/-- Python `str.replace(pat, rep)` on list-of-character strings. -/
def replaceAll (pat rep l : List Char) : List Char := replaceAllF l.length pat rep l

/-- Codegen context of `CodeWriter`: current module name, current
function name (`None` before any `function` command), comparison label
counter, and per-callee call-site counter. -/
structure CW where
  filename : Option (List Char)
  functionName : Option (List Char)
  symbolIndex : Nat
  callIndex : List (List Char × Nat)
deriving DecidableEq

/-- The state of a fresh `CodeWriter` (`filename` and `function_name`
are Python `None`, the counters start at zero / empty). -/
def cw0 : CW := ⟨none, none, 0, []⟩

/-- Python `f'{x}'` on an optional string: `None` prints as `None`. -/
def pyStr : Option (List Char) → List Char
  | none => chs "None"
  | some s => s

/-- Python `int(string)`: an optional sign followed by digits. -/
def pyInt (s : List Char) : Option Int :=
  match s with
  | '-' :: r => if isNumericStr r then some (-(charsToNat r : Int)) else none
  | '+' :: r => if isNumericStr r then some ((charsToNat r : Int)) else none
  | _ => if isNumericStr s then some ((charsToNat s : Int)) else none

/-- `CodeWriter.COMMAND_GROUP`. -/
def COMMAND_GROUP : List (List Char × List Char) :=
  [(chs "add", chs "add_sub_and_or"),
   (chs "sub", chs "add_sub_and_or"),
   (chs "and", chs "add_sub_and_or"),
   (chs "or", chs "add_sub_and_or"),
   (chs "neg", chs "neg_not"),
   (chs "not", chs "neg_not"),
   (chs "eq", chs "eq_gt_lt"),
   (chs "gt", chs "eq_gt_lt"),
   (chs "lt", chs "eq_gt_lt")]

/-- `CodeWriter.MATH_LOGIC_TEMPLATE`. -/
def MATH_LOGIC_TEMPLATE : List (List Char × List Char) :=
  [(chs "add_sub_and_or", chs "@SP\nAM=M-1\nD=M\nA=A-1\nM=insert\n"),
   (chs "neg_not", chs "@SP\nA=M-1\nM=insert\n"),
   (chs "eq_gt_lt",
    chs "@SP\nAM=M-1\nD=M\nA=A-1\nD=M-D\n@TRUE.index\nD;insert\nD=0\n@CONT.index\n0;JMP\n(TRUE.index)\nD=-1\n(CONT.index)\n@SP\nA=M-1\nM=D\n")]

/-- `CodeWriter.ASM_INSERT`. -/
def ASM_INSERT : List (List Char × List Char) :=
  [(chs "add", chs "D+M"),
   (chs "sub", chs "M-D"),
   (chs "and", chs "D&M"),
   (chs "or", chs "D|M"),
   (chs "neg", chs "-M"),
   (chs "not", chs "!M"),
   (chs "eq", chs "JEQ"),
   (chs "gt", chs "JGT"),
   (chs "lt", chs "JLT")]

/-- `CodeWriter.SEGMENT_GROUPS`. -/
def SEGMENT_GROUPS : List (List Char × List Char) :=
  [(chs "argument", chs "argument_local_this_that_temp"),
   (chs "local", chs "argument_local_this_that_temp"),
   (chs "this", chs "argument_local_this_that_temp"),
   (chs "that", chs "argument_local_this_that_temp"),
   (chs "temp", chs "argument_local_this_that_temp"),
   (chs "static", chs "static_pointer"),
   (chs "constant", chs "constant"),
   (chs "pointer", chs "static_pointer")]

/-- `CodeWriter.PUSH_POP_TEMPLATE`, keyed by command and segment group. -/
def PUSH_POP_TEMPLATE : List ((List Char × List Char) × List Char) :=
  [((chs "C_PUSH", chs "argument_local_this_that_temp"),
    chs "@address\nD=computation\n@index\nA=D+A\nD=M\n@SP\nM=M+1\nA=M-1\nM=D\n"),
   ((chs "C_POP", chs "argument_local_this_that_temp"),
    chs "@address\nD=computation\n@index\nD=D+A\n@SP\nAM=M-1\nD=D+M\nA=D-M\nM=D-A\n"),
   ((chs "C_PUSH", chs "static_pointer"),
    chs "@address\nD=M\n@SP\nM=M+1\nA=M-1\nM=D\n"),
   ((chs "C_POP", chs "static_pointer"),
    chs "@SP\nAM=M-1\nD=M\n@address\nM=D\n"),
   ((chs "C_PUSH", chs "constant"),
    chs "@index\nD=A\n@SP\nM=M+1\nA=M-1\nM=D\n")]

/-- `CodeWriter.BASE_ADDRESS`. -/
def BASE_ADDRESS : List (List Char × List Char) :=
  [(chs "argument", chs "ARG"),
   (chs "local", chs "LCL"),
   (chs "this", chs "THIS"),
   (chs "that", chs "THAT"),
   (chs "temp", chs "5")]

/-- `CodeWriter.POINTER_ADDRESS`. -/
def POINTER_ADDRESS : List (List Char × List Char) :=
  [(chs "0", chs "THIS"),
   (chs "1", chs "THAT")]

/-- `CodeWriter.write_arithmetic`: instantiate the group's template with
the command's comp or jump insert; a comparison command additionally
substitutes the current symbol index into its labels and increments the
index.  `none` models the `KeyError` on an unknown command. -/
def writeArithmetic (st : CW) (cmd : List Char) : Option (CW × List Char) :=
  match lookupAL COMMAND_GROUP cmd with
  | none => none
  | some grp =>
    match lookupAL MATH_LOGIC_TEMPLATE grp, lookupAL ASM_INSERT cmd with
    | some tpl, some ins =>
      let asm1 := replaceAll (chs "insert") ins tpl
      if grp = chs "eq_gt_lt" then
        some ({ st with symbolIndex := st.symbolIndex + 1 },
          replaceAll (chs "index") (natToDec st.symbolIndex) asm1)
      else
        some (st, asm1)
    | _, _ => none

/-- `CodeWriter.write_push_pop`: pick the template by command and segment
group and substitute `address`, `computation`, and `index` as the source
does; `none` models the `KeyError` on a bad segment, on `pop constant`,
or on a pointer index other than 0/1. -/
def writePushPop (fname : Option (List Char)) (command seg idx : List Char) :
    Option (List Char) :=
  match lookupAL SEGMENT_GROUPS seg with
  | none => none
  | some grp =>
    match lookupAL PUSH_POP_TEMPLATE (command, grp) with
    | none => none
    | some tpl =>
      if grp = chs "argument_local_this_that_temp" then
        match lookupAL BASE_ADDRESS seg with
        | none => none
        | some addr =>
          let cmp := if seg = chs "temp" then chs "A" else chs "M"
          some (replaceAll (chs "index") idx
            (replaceAll (chs "computation") cmp (replaceAll (chs "address") addr tpl)))
      else if seg = chs "static" then
        some (replaceAll (chs "address") (pyStr fname ++ '.' :: idx) tpl)
      else if seg = chs "constant" then
        some (replaceAll (chs "index") idx tpl)
      else
        match lookupAL POINTER_ADDRESS idx with
        | none => none
        | some addr => some (replaceAll (chs "address") addr tpl)

/-- The branch target `f'{function_name}${label}'` of the branching
commands. -/
def gotoLabelStr (fn : Option (List Char)) (l : List Char) : List Char :=
  pyStr fn ++ '$' :: l

/-- `CodeWriter.write_label`. -/
def writeLabel (st : CW) (l : List Char) : List Char :=
  '(' :: (gotoLabelStr st.functionName l ++ chs ")\n")

/-- `CodeWriter.write_goto`. -/
def writeGoto (st : CW) (l : List Char) : List Char :=
  '@' :: (gotoLabelStr st.functionName l ++ chs "\n0;JMP\n")

/-- `CodeWriter.write_if`. -/
def writeIf (st : CW) (l : List Char) : List Char :=
  chs "@SP\nAM=M-1\nD=M\n@" ++ gotoLabelStr st.functionName l ++ chs "\nD;JNE\n"

/-- `CodeWriter.write_function`: emit the entry label and `nVars`
push-constant-0 blocks, and record the current function name. -/
def writeFunction (st : CW) (fname nVars : List Char) : Option (CW × List Char) :=
  (pyInt nVars).map (fun n =>
    ({ st with functionName := some fname },
     '(' :: (fname ++ chs ")\n") ++
       (List.replicate n.toNat
         (replaceAll (chs "index") (chs "0")
           ((lookupAL PUSH_POP_TEMPLATE (chs "C_PUSH", chs "constant")).getD []))).flatten))

/-- Update-or-insert into an association list (Python dict assignment). -/
def updAL {α : Type} [DecidableEq α] {β : Type} : List (α × β) → α → β → List (α × β)
  | [], k, v => [(k, v)]
  | p :: rest, k, v => if p.1 = k then (k, v) :: rest else p :: updAL rest k v

/-- `CodeWriter.write_call`: bump (or create) the per-callee call-site
counter, then emit the calling sequence around the fresh return-address
label. -/
def writeCall (st : CW) (fname nArgs : List Char) : CW × List Char :=
  let k := match lookupAL st.callIndex fname with
    | some j => j + 1
    | none => 0
  let ra := fname ++ chs "$ret." ++ natToDec k
  ({ st with callIndex := updAL st.callIndex fname k },
   '@' :: (ra ++ chs "\n") ++
   chs "D=A\n@SP\nM=M+1\nA=M-1\nM=D\n" ++
   chs "@LCL\nD=M\n@SP\nM=M+1\nA=M-1\nM=D\n" ++
   chs "@ARG\nD=M\n@SP\nM=M+1\nA=M-1\nM=D\n" ++
   chs "@THIS\nD=M\n@SP\nM=M+1\nA=M-1\nM=D\n" ++
   chs "@THAT\nD=M\n@SP\nM=M+1\nA=M-1\nM=D\n" ++
   chs "@SP\nD=M\n@5\nD=D-A\n@" ++ (nArgs ++ chs "\nD=D-A\n@ARG\nM=D\n") ++
   chs "@SP\nD=M\n@LCL\nM=D\n" ++
   ('@' :: (fname ++ chs "\n0;JMP\n")) ++
   ('(' :: (ra ++ chs ")\n")))

/-- `CodeWriter.write_return`: the fixed return epilogue. -/
def returnAsm : List Char :=
  chs "@LCL\nD=M\n@R13\nM=D\n" ++
  chs "@5\nA=D-A\nD=M\n@R14\nM=D\n" ++
  chs "@SP\nAM=M-1\nD=M\n@ARG\nA=M\nM=D\n" ++
  chs "D=A\n@SP\nM=D+1\n" ++
  chs "@R13\nAM=M-1\nD=M\n@THAT\nM=D\n" ++
  chs "@R13\nAM=M-1\nD=M\n@THIS\nM=D\n" ++
  chs "@R13\nAM=M-1\nD=M\n@ARG\nM=D\n" ++
  chs "@R13\nAM=M-1\nD=M\n@LCL\nM=D\n" ++
  chs "@R14\nA=M\n0;JMP\n"

/-- A VM command as dispatched by `VMTranslator.translate` (arguments are
the raw strings of the source line). -/
inductive VMCmd where
  | push : List Char → List Char → VMCmd
  | pop : List Char → List Char → VMCmd
  | arith : List Char → VMCmd
  | label : List Char → VMCmd
  | goto : List Char → VMCmd
  | ifgoto : List Char → VMCmd
  | func : List Char → List Char → VMCmd
  | call : List Char → List Char → VMCmd
  | ret : VMCmd
deriving DecidableEq

/-- Translate one VM command in the current codegen context, mirroring
the dispatch in `VMTranslator.translate`; `none` models a fatal Python
exception. -/
def translateCmd (st : CW) : VMCmd → Option (CW × List Char)
  | VMCmd.push seg idx => (writePushPop st.filename (chs "C_PUSH") seg idx).map (fun out => (st, out))
  | VMCmd.pop seg idx => (writePushPop st.filename (chs "C_POP") seg idx).map (fun out => (st, out))
  | VMCmd.arith op => writeArithmetic st op
  | VMCmd.label l => some (st, writeLabel st l)
  | VMCmd.goto l => some (st, writeGoto st l)
  | VMCmd.ifgoto l => some (st, writeIf st l)
  | VMCmd.func f n => writeFunction st f n
  | VMCmd.call f n => some (writeCall st f n)
  | VMCmd.ret => some (st, returnAsm)

/-- `VMTranslator.translate`'s loop over one module's commands: thread
the codegen context, collect one output chunk per command, and report
whether translation survived (a Python exception stops the program). -/
def runCmds : CW → List VMCmd → CW × List (List Char) × Bool
  | st, [] => (st, [], true)
  | st, c :: rest =>
    match translateCmd st c with
    | none => (st, [], false)
    | some r =>
      let k := runCmds r.1 rest
      (k.1, r.2 :: k.2.1, k.2.2)

/-- Translate one module: `set_filename` then the command loop. -/
def runModule (st : CW) (modName : List Char) (cmds : List VMCmd) :
    CW × List (List Char) × Bool :=
  runCmds { st with filename := some modName } cmds

/-- `VMTranslator.__init__`'s loop over the modules of a translation
unit: one `CodeWriter` state threads through all of them. -/
def runUnit : CW → List (List Char × List VMCmd) → CW × List (List Char) × Bool
  | st, [] => (st, [], true)
  | st, mo :: rest =>
    let r := runModule st mo.1 mo.2
    if r.2.2 then
      let r2 := runUnit r.1 rest
      (r2.1, r.2.1 ++ r2.2.1, r2.2.2)
    else
      (r.1, r.2.1, false)

/-- The commands of a unit, each tagged with its module's name. -/
def unitCmds (mods : List (List Char × List VMCmd)) : List (List Char × VMCmd) :=
  (mods.map (fun mo => mo.2.map (fun c => (mo.1, c)))).flatten

/-- Run tagged commands, setting the filename before each command; this
agrees with `runUnit` (the filename is re-set to the same name within a
module, and nothing else reads or writes it between commands). -/
def runTagged : CW → List (List Char × VMCmd) → CW × List (List Char) × Bool
  | st, [] => (st, [], true)
  | st, tc :: rest =>
    match translateCmd { st with filename := some tc.1 } tc.2 with
    | none => ({ st with filename := some tc.1 }, [], false)
    | some r =>
      let k := runTagged r.1 rest
      (k.1, r.2 :: k.2.1, k.2.2)

/-- The three comparison opcodes. -/
def isCompOp (op : List Char) : Bool :=
  op = chs "eq" || op = chs "gt" || op = chs "lt"

/-- Whether a command is a comparison (eq/gt/lt) command. -/
def isCompCmd : VMCmd → Bool
  | VMCmd.arith op => isCompOp op
  | _ => false

/-- Number of comparison commands in a tagged command list. -/
def compCountT (tcs : List (List Char × VMCmd)) : Nat :=
  (tcs.filter (fun tc => isCompCmd tc.2)).length

/-- The function-name context after a tagged command list: the name of
the most recent `function` command, or the carried-in value. -/
def lastFnT (f : Option (List Char)) (tcs : List (List Char × VMCmd)) :
    Option (List Char) :=
  tcs.foldl (fun g tc =>
    match tc.2 with
    | VMCmd.func n _ => some n
    | _ => g) f

/-- The function-name context after one command: a `function` command
replaces it with its own name. -/
def fnAfter (f : Option (List Char)) : VMCmd → Option (List Char)
  | VMCmd.func n _ => some n
  | _ => f

/-- The first label a comparison with index `k` emits. -/
def trueLabel (k : Nat) : List Char := chs "TRUE." ++ natToDec k

/-- The second label a comparison with index `k` emits. -/
def contLabel (k : Nat) : List Char := chs "CONT." ++ natToDec k

/-- The assembly chunk emitted for a comparison command whose jump insert
is `ins` and whose comparison index is `k` (the eq/gt/lt template with
both placeholders substituted). -/
def compChunkSpliced (ins : List Char) (k : Nat) : List Char :=
  chs "@SP\nAM=M-1\nD=M\nA=A-1\nD=M-D\n@" ++ trueLabel k ++ (chs "\nD;" ++ ins ++
  (chs "\nD=0\n@" ++ contLabel k ++ (chs "\n0;JMP\n(" ++ trueLabel k ++
  (chs ")\nD=-1\n(" ++ contLabel k ++ chs ")\n@SP\nA=M-1\nM=D\n"))))

/-- The three branching command kinds, apparatus for stating one claim
about `label`, `goto`, and `if-goto` at once. -/
inductive BKind where
  | lab : BKind
  | go : BKind
  | ifgo : BKind

/-- The VM command of a branching kind. -/
def mkBranch : BKind → List Char → VMCmd
  | BKind.lab, l => VMCmd.label l
  | BKind.go, l => VMCmd.goto l
  | BKind.ifgo, l => VMCmd.ifgoto l

/-- The assembly chunk each branching kind emits around its target. -/
def branchChunk : BKind → List Char → List Char
  | BKind.lab, t => '(' :: (t ++ chs ")\n")
  | BKind.go, t => '@' :: (t ++ chs "\n0;JMP\n")
  | BKind.ifgo, t => chs "@SP\nAM=M-1\nD=M\n@" ++ (t ++ chs "\nD;JNE\n")

/-- The parsed instructions of the return epilogue (proved below to be
exactly what `returnAsm` parses to). -/
def returnInstrs : List HInstr :=
  [HInstr.aLoad 1, HInstr.cmd (chs "D") (chs "M") [],
   HInstr.aLoad 13, HInstr.cmd (chs "M") (chs "D") [],
   HInstr.aLoad 5, HInstr.cmd (chs "A") (chs "D-A") [],
   HInstr.cmd (chs "D") (chs "M") [],
   HInstr.aLoad 14, HInstr.cmd (chs "M") (chs "D") [],
   HInstr.aLoad 0, HInstr.cmd (chs "AM") (chs "M-1") [],
   HInstr.cmd (chs "D") (chs "M") [],
   HInstr.aLoad 2, HInstr.cmd (chs "A") (chs "M") [],
   HInstr.cmd (chs "M") (chs "D") [],
   HInstr.cmd (chs "D") (chs "A") [],
   HInstr.aLoad 0, HInstr.cmd (chs "M") (chs "D+1") [],
   HInstr.aLoad 13, HInstr.cmd (chs "AM") (chs "M-1") [],
   HInstr.cmd (chs "D") (chs "M") [],
   HInstr.aLoad 4, HInstr.cmd (chs "M") (chs "D") [],
   HInstr.aLoad 13, HInstr.cmd (chs "AM") (chs "M-1") [],
   HInstr.cmd (chs "D") (chs "M") [],
   HInstr.aLoad 3, HInstr.cmd (chs "M") (chs "D") [],
   HInstr.aLoad 13, HInstr.cmd (chs "AM") (chs "M-1") [],
   HInstr.cmd (chs "D") (chs "M") [],
   HInstr.aLoad 2, HInstr.cmd (chs "M") (chs "D") [],
   HInstr.aLoad 13, HInstr.cmd (chs "AM") (chs "M-1") [],
   HInstr.cmd (chs "D") (chs "M") [],
   HInstr.aLoad 1, HInstr.cmd (chs "M") (chs "D") [],
   HInstr.aLoad 14, HInstr.cmd (chs "A") (chs "M") [],
   HInstr.cmd [] (chs "0") (chs "JMP")]

/-- The emitted assembly of `pop` on a pointer-based segment whose base
symbol is `baseSym`, with the index string spliced in (proved below to
be exactly what `write_push_pop` emits). -/
def popPtrAsm (baseSym idx : List Char) : List Char :=
  '@' :: (baseSym ++ (chs "\nD=M\n@" ++ (idx ++
    chs "\nD=D+A\n@SP\nAM=M-1\nD=D+M\nA=D-M\nM=D-A\n")))

/-- The parsed instructions of that pop fragment, for base address `b`
and numeric index `i`. -/
def popPtrInstrs (b i : Int) : List HInstr :=
  [HInstr.aLoad b, HInstr.cmd (chs "D") (chs "M") [],
   HInstr.aLoad i, HInstr.cmd (chs "D") (chs "D+A") [],
   HInstr.aLoad 0, HInstr.cmd (chs "AM") (chs "M-1") [],
   HInstr.cmd (chs "D") (chs "D+M") [],
   HInstr.cmd (chs "A") (chs "D-M") [],
   HInstr.cmd (chs "M") (chs "D-A") []]

/-- RAM of the concrete machine used to witness the return theorem. -/
def c1DemoRam : Int → Int := fun i =>
  if i = 0 then 305 else if i = 1 then 300 else if i = 2 then 280
  else if i = 295 then 777 else if i = 296 then 11 else if i = 297 then 12
  else if i = 298 then 13 else if i = 299 then 14 else if i = 304 then 42 else 0

/-- Concrete machine used to witness the return theorem: a frame with
LCL = 300, ARG = 280, SP = 305, return address 777 at 295 = LCL - 5,
saved pointers 11, 12, 13, 14 at 296..299, and return value 42 on top. -/
def c1DemoMach : Mach := ⟨0, 0, c1DemoRam⟩

/-- RAM of the concrete machine used to witness the pop theorem. -/
def c2DemoRam : Int → Int := fun i =>
  if i = 0 then 310 else if i = 1 then 400 else if i = 309 then 99 else 0

/-- Concrete machine used to witness the pop theorem: LCL = 400,
SP = 310, value 99 on top of the stack. -/
def c2DemoMach : Mach := ⟨0, 0, c2DemoRam⟩

theorem lookup_append_left {α β : Type} [DecidableEq α] (t u : List (α × β)) (k : α) (v : β)
    (h : lookupAL t k = some v) : lookupAL (t ++ u) k = some v := by
  induction t with
  | nil => simp [lookupAL] at h
  | cons p rest ih =>
    simp only [List.cons_append, lookupAL] at h ⊢
    by_cases hk : p.1 = k
    · rw [if_pos hk] at h ⊢; exact h
    · rw [if_neg hk] at h ⊢; exact ih h

theorem lookup_append_none {α β : Type} [DecidableEq α] (t u : List (α × β)) (k : α)
    (h : lookupAL t k = none) : lookupAL (t ++ u) k = lookupAL u k := by
  induction t with
  | nil => rfl
  | cons p rest ih =>
    simp only [List.cons_append, lookupAL] at h ⊢
    by_cases hk : p.1 = k
    · rw [if_pos hk] at h; exact absurd h (by simp)
    · rw [if_neg hk] at h ⊢; exact ih h

/-- C3.  The first pass does not bind labels to the count of A- and
C-instructions seen so far, and L-instructions are not always neutral to
the counter: an L-instruction whose label is already bound (here the
predefined `SP`) falls into the source's bare `else` branch and advances
the counter.  On the two-line input `(SP)`, `(L)` no A- or C-instruction
precedes `(L)`, yet `L` is bound to address 1, where the claim requires
binding to 0. -/
theorem c3_first_pass_rom_bug :
    romCount [chs "(SP)"] = 0 ∧
    (firstPass [chs "(SP)", chs "(L)"] predefTable 0).2 = 1 ∧
    lookupAL (firstPass [chs "(SP)", chs "(L)"] predefTable 0).1 (chs "L")
      = some (toBinary 1) ∧
    toBinary 1 ≠ toBinary 0 := by decide

/-- C7.  The assembler has no range check on numeric A-operands: on
`@32768` it does not abort but happily emits `'0'` followed by the
16-character binary of 32768, a malformed 17-character line, where the
claim requires a fatal error and no emitted word. -/
theorem c7_range_check_missing :
    secondPass [chs "@32768"] predefTable 0 =
      some ([('0' :: toBinary 32768)], predefTable, 0) ∧
    ('0' :: toBinary 32768).length = 17 := by decide

/-- C8.  The line source does not yield the comment-stripped, trimmed,
nonempty lines to end of file: a whitespace-only line (not equal to a
bare newline) strips to the empty string, which `has_more_lines` treats
as end of input, so all later lines are dropped — in both translators.
Moreover the VM translator's `advance` never strips an inline `//`
comment.  `specLogicalLines` is the behaviour the claim describes. -/
theorem c8_line_source_bug :
    asmLogicalLines [chs "   \n", chs "@7\n"] = [] ∧
    vmLogicalLines [chs "   \n", chs "@7\n"] = [] ∧
    specLogicalLines [chs "   \n", chs "@7\n"] = [chs "@7"] ∧
    vmLogicalLines [chs "push constant 7 // hi\n"] = [chs "push constant 7 // hi"] ∧
    specLogicalLines [chs "push constant 7 // hi\n"] = [chs "push constant 7"] := by decide

/-- C9 counterexample.  On the input `(X)`, `(X)` — the same label bound
twice — the first pass completes normally (the source has no failure
path at all here: the model of `first_pass` is a total function) and the
symbol table keeps the first binding `X -> 0`, refuting the claim that
the assembler fails with a Redefinition error rather than silently
keeping the first binding. -/
theorem c9_no_redefinition_error :
    firstPass [chs "(X)", chs "(X)"] predefTable 0 =
      (predefTable ++ [(chs "X", toBinary 0)], 1) := by decide

/-- C9 amended: an L-instruction whose label is already bound does not
fail; the first pass silently keeps every existing binding unchanged
(the duplicate line merely falls into the branch that advances the line
counter). -/
theorem c9_first_binding_kept (ls : List (List Char)) (t : List (List Char × List Char))
    (rom : Nat) (s a : List Char) (h : lookupAL t s = some a) :
    lookupAL (firstPass ls t rom).1 s = some a := by
  revert h
  induction ls generalizing t rom with
  | nil => exact fun h => h
  | cons l rest ih =>
    intro h
    simp only [firstPass]
    split
    · exact ih _ _ (lookup_append_left _ _ _ _ h)
    · exact ih _ _ h

theorem c9_first_binding_kept_witness :
    lookupAL (firstPass [chs "(SP)", chs "(SP)"] predefTable 0).1 (chs "SP")
      = some (chs "000000000000000") :=
  c9_first_binding_kept _ _ _ _ _ (by decide)

theorem lookup_mem {α β : Type} [DecidableEq α] (t : List (α × β)) (k : α) (v : β)
    (h : lookupAL t k = some v) : (k, v) ∈ t := by
  induction t with
  | nil => simp [lookupAL] at h
  | cons p rest ih =>
    simp only [lookupAL] at h
    by_cases hk : p.1 = k
    · subst hk
      rw [if_pos rfl] at h
      injection h with h2
      subst h2
      rw [Prod.mk.eta]
      exact List.mem_cons_self _ _
    · rw [if_neg hk] at h
      exact List.mem_cons_of_mem _ (ih h)

theorem spec_comp_to_src (c cc : List Char) (h : lookupAL specCompTable c = some cc) :
    lookupAL compTable c = some cc :=
  (by decide : ∀ p ∈ specCompTable, lookupAL compTable p.1 = some p.2) _ (lookup_mem _ _ _ h)

theorem spec_dest_to_src (c dc : List Char) (h : lookupAL specDestTable c = some dc) :
    lookupAL destTable c = some dc :=
  (by decide : ∀ p ∈ specDestTable, lookupAL destTable p.1 = some p.2) _ (lookup_mem _ _ _ h)

theorem spec_jump_to_src (c jc : List Char) (h : lookupAL specJumpTable c = some jc) :
    lookupAL jumpTable c = some jc :=
  (by decide : ∀ p ∈ specJumpTable, lookupAL jumpTable p.1 = some p.2) _ (lookup_mem _ _ _ h)

theorem spec_comp_len (c cc : List Char) (h : lookupAL specCompTable c = some cc) :
    cc.length = 7 :=
  (by decide : ∀ p ∈ specCompTable, p.2.length = 7) _ (lookup_mem _ _ _ h)

theorem spec_dest_len (c dc : List Char) (h : lookupAL specDestTable c = some dc) :
    dc.length = 3 :=
  (by decide : ∀ p ∈ specDestTable, p.2.length = 3) _ (lookup_mem _ _ _ h)

theorem spec_jump_len (c jc : List Char) (h : lookupAL specJumpTable c = some jc) :
    jc.length = 3 :=
  (by decide : ∀ p ∈ specJumpTable, p.2.length = 3) _ (lookup_mem _ _ _ h)

/-- C5.  For every C-instruction line whose parsed dest, comp, and jump
mnemonics are recognized — i.e. appear in the tables of spec section 6.2
(`specCompTable`, `specDestTable`, `specJumpTable`, transcribed from the
spec) — the second pass writes exactly the line `111` followed by the
7 comp bits, 3 dest bits and 3 jump bits of those tables, a 16-character
line, and continues with the rest of the input. -/
theorem c5_cinstruction_encoding (l : List Char) (rest : List (List Char))
    (t : List (List Char × List Char)) (vc : Nat)
    (hty : instrType l = IType.cInstr) (cc dc jc : List Char)
    (hc : lookupAL specCompTable (compOf l) = some cc)
    (hd : lookupAL specDestTable (destOf l) = some dc)
    (hj : lookupAL specJumpTable (jumpOf l) = some jc) :
    secondPass (l :: rest) t vc =
      (secondPass rest t vc).map
        (fun r => (('1' :: '1' :: '1' :: (cc ++ dc ++ jc)) :: r.1, r.2)) ∧
    ('1' :: '1' :: '1' :: (cc ++ dc ++ jc)).length = 16 := by
  constructor
  · simp only [secondPass, hty, spec_comp_to_src _ _ hc, spec_dest_to_src _ _ hd,
      spec_jump_to_src _ _ hj]
  · simp only [List.length_cons, List.length_append, spec_comp_len _ _ hc,
      spec_dest_len _ _ hd, spec_jump_len _ _ hj]

theorem c5_cinstruction_encoding_witness :
    secondPass [chs "D=M+1"] [] 0 = some ([chs "1111110111010000"], [], 0) ∧
    (chs "1111110111010000").length = 16 := by
  have h := c5_cinstruction_encoding (chs "D=M+1") [] [] 0 (by decide)
    (chs "1110111") (chs "010") (chs "000") (by decide) (by decide) (by decide)
  exact ⟨h.1.trans (by decide), by decide⟩

theorem lookup_append_one {α β : Type} [DecidableEq α] (t : List (α × β)) (s : α) (v : β)
    (x : α) : lookupAL (t ++ [(s, v)]) x = none ↔ (lookupAL t x = none ∧ ¬s = x) := by
  induction t with
  | nil =>
    simp only [List.nil_append, lookupAL]
    by_cases hs : s = x
    · simp [hs]
    · simp [hs]
  | cons p rest ih =>
    simp only [List.cons_append, lookupAL]
    by_cases hp : p.1 = x
    · simp [hp]
    · simp only [if_neg hp]; exact ih

theorem freshSymbols_dom (ls : List (List Char)) :
    ∀ t₁ t₂ : List (List Char × List Char),
    (∀ x, lookupAL t₁ x = none ↔ lookupAL t₂ x = none) →
    freshSymbols t₁ ls = freshSymbols t₂ ls := by
  induction ls with
  | nil => intro t₁ t₂ _; rfl
  | cons l rest ih =>
    intro t₁ t₂ hdom
    simp only [freshSymbols]
    by_cases hc : instrType l = IType.aInstr ∧ isNumericStr (symbolOf l) = false ∧
        lookupAL t₁ (symbolOf l) = none
    · have hc₂ : instrType l = IType.aInstr ∧ isNumericStr (symbolOf l) = false ∧
          lookupAL t₂ (symbolOf l) = none :=
        ⟨hc.1, hc.2.1, (hdom _).mp hc.2.2⟩
      rw [if_pos hc, if_pos hc₂]
      have : ∀ x, lookupAL (t₁ ++ [(symbolOf l, [])]) x = none ↔
          lookupAL (t₂ ++ [(symbolOf l, [])]) x = none := by
        intro x
        rw [lookup_append_one, lookup_append_one, hdom x]
      rw [ih _ _ this]
    · have hc₂ : ¬(instrType l = IType.aInstr ∧ isNumericStr (symbolOf l) = false ∧
          lookupAL t₂ (symbolOf l) = none) := by
        intro h
        exact hc ⟨h.1, h.2.1, (hdom _).mpr h.2.2⟩
      rw [if_neg hc, if_neg hc₂]
      exact ih _ _ hdom

theorem c6h_persist (ls : List (List Char)) :
    ∀ (t : List (List Char × List Char)) (vc : Nat) out t' vc',
    secondPass ls t vc = some (out, t', vc') →
    ∀ s a, lookupAL t s = some a → lookupAL t' s = some a := by
  induction ls with
  | nil =>
    intro t vc out t' vc' hrun s a hs
    simp only [secondPass, Option.some.injEq, Prod.mk.injEq] at hrun
    obtain ⟨-, rfl, -⟩ := hrun
    exact hs
  | cons l rest ih =>
    intro t vc out t' vc' hrun s a hs
    simp only [secondPass] at hrun
    split at hrun
    · split at hrun
      · rcases Option.map_eq_some'.mp hrun with ⟨⟨ro, rt, rv⟩, hr, hf⟩
        simp only [Prod.mk.injEq] at hf
        obtain ⟨-, rfl, -⟩ := hf
        exact ih _ _ _ _ _ hr s a hs
      · split at hrun
        · rcases Option.map_eq_some'.mp hrun with ⟨⟨ro, rt, rv⟩, hr, hf⟩
          simp only [Prod.mk.injEq] at hf
          obtain ⟨-, rfl, -⟩ := hf
          exact ih _ _ _ _ _ hr s a hs
        · rcases Option.map_eq_some'.mp hrun with ⟨⟨ro, rt, rv⟩, hr, hf⟩
          simp only [Prod.mk.injEq] at hf
          obtain ⟨-, rfl, -⟩ := hf
          exact ih _ _ _ _ _ hr s a (lookup_append_left _ _ _ _ hs)
    · split at hrun
      · rcases Option.map_eq_some'.mp hrun with ⟨⟨ro, rt, rv⟩, hr, hf⟩
        simp only [Prod.mk.injEq] at hf
        obtain ⟨-, rfl, -⟩ := hf
        exact ih _ _ _ _ _ hr s a hs
      · exact absurd hrun (by simp)
    · exact ih _ _ _ _ _ hrun s a hs

theorem c6h_alloc (ls : List (List Char)) :
    ∀ (t : List (List Char × List Char)) (vc : Nat) out t' vc',
    secondPass ls t vc = some (out, t', vc') →
    ∀ k name, (freshSymbols t ls).get? k = some name →
    lookupAL t' name = some (toBinary (vc + 16 + k)) := by
  induction ls with
  | nil =>
    intro t vc out t' vc' _ k name hname
    simp [freshSymbols] at hname
  | cons l rest ih =>
    intro t vc out t' vc' hrun k name hname
    simp only [secondPass] at hrun
    split at hrun
    case _ heq =>
      split at hrun
      case _ hnum =>
        rcases Option.map_eq_some'.mp hrun with ⟨⟨ro, rt, rv⟩, hr, hf⟩
        simp only [Prod.mk.injEq] at hf
        obtain ⟨-, rfl, -⟩ := hf
        rw [show freshSymbols t (l :: rest) = freshSymbols t rest from by
          simp only [freshSymbols]
          rw [if_neg]
          intro hcon
          rw [hcon.2.1] at hnum
          exact absurd hnum (by simp)] at hname
        exact ih _ _ _ _ _ hr k name hname
      case _ hnum =>
        split at hrun
        case _ addr hlk =>
          rcases Option.map_eq_some'.mp hrun with ⟨⟨ro, rt, rv⟩, hr, hf⟩
          simp only [Prod.mk.injEq] at hf
          obtain ⟨-, rfl, -⟩ := hf
          rw [show freshSymbols t (l :: rest) = freshSymbols t rest from by
            simp only [freshSymbols]
            rw [if_neg]
            intro hcon
            rw [hcon.2.2] at hlk
            exact absurd hlk (by simp)] at hname
          exact ih _ _ _ _ _ hr k name hname
        case _ hlk =>
          rcases Option.map_eq_some'.mp hrun with ⟨⟨ro, rt, rv⟩, hr, hf⟩
          simp only [Prod.mk.injEq] at hf
          obtain ⟨-, rfl, -⟩ := hf
          rw [show freshSymbols t (l :: rest) =
              symbolOf l :: freshSymbols (t ++ [(symbolOf l, [])]) rest from by
            simp only [freshSymbols]
            rw [if_pos ⟨heq, by simpa using hnum, hlk⟩]] at hname
          cases k with
          | zero =>
            injection hname with hname
            subst hname
            have hb : lookupAL (t ++ [(symbolOf l, toBinary (vc + 16))]) (symbolOf l)
                = some (toBinary (vc + 16)) := by
              rw [lookup_append_none _ _ _ hlk]
              simp [lookupAL]
            exact c6h_persist rest _ _ _ _ _ hr _ _ hb
          | succ k =>
            rw [List.get?_cons_succ] at hname
            have hdom : ∀ x, lookupAL (t ++ [(symbolOf l, toBinary (vc + 16))]) x = none ↔
                lookupAL (t ++ [(symbolOf l, [])]) x = none := by
              intro x
              rw [lookup_append_one, lookup_append_one]
            have hname₂ : (freshSymbols (t ++ [(symbolOf l, toBinary (vc + 16))]) rest).get? k
                = some name := by
              rw [freshSymbols_dom rest _ _ hdom]
              exact hname
            have hres := ih _ _ _ _ _ hr k name hname₂
            have harith : vc + 1 + 16 + k = vc + 16 + (k + 1) := by omega
            rw [harith] at hres
            exact hres
    case _ heq =>
      split at hrun
      case _ cc dc jc hcc hdc hjc =>
        rcases Option.map_eq_some'.mp hrun with ⟨⟨ro, rt, rv⟩, hr, hf⟩
        simp only [Prod.mk.injEq] at hf
        obtain ⟨-, rfl, -⟩ := hf
        rw [show freshSymbols t (l :: rest) = freshSymbols t rest from by
          simp only [freshSymbols]
          rw [if_neg]
          intro hcon
          rw [hcon.1] at heq
          exact absurd heq (by simp)] at hname
        exact ih _ _ _ _ _ hr k name hname
      case _ => exact absurd hrun (by simp)
    case _ h1 h2 =>
      rw [show freshSymbols t (l :: rest) = freshSymbols t rest from by
        simp only [freshSymbols]
        rw [if_neg]
        intro hcon
        exact h1 hcon.1] at hname
      exact ih _ _ _ _ _ hrun k name hname

theorem emitCount_cons_emit (x : List Char) (xs : List (List Char))
    (h : instrType x = IType.aInstr ∨ instrType x = IType.cInstr) :
    emitCount (x :: xs) = emitCount xs + 1 := by
  rcases h with h | h <;> simp [emitCount, romCount, List.filter_cons, h]

theorem emitCount_cons_skip (x : List Char) (xs : List (List Char))
    (h1 : ¬instrType x = IType.aInstr) (h2 : ¬instrType x = IType.cInstr) :
    emitCount (x :: xs) = emitCount xs := by
  simp [emitCount, romCount, List.filter_cons, h1, h2]

theorem c6h_emit (xs : List (List Char)) :
    ∀ (t : List (List Char × List Char)) (vc : Nat) out t' vc' (s : List Char) ys,
    secondPass (xs ++ ('@' :: s) :: ys) t vc = some (out, t', vc') →
    isNumericStr s = false →
    out.get? (emitCount xs) = some ('0' :: ((lookupAL t' s).getD [])) := by
  induction xs with
  | nil =>
    intro t vc out t' vc' s ys hrun hs
    simp only [List.nil_append, secondPass, instrType, symbolOf, hs] at hrun
    rw [if_neg (by simp)] at hrun
    split at hrun
    case _ addr hlk =>
      rcases Option.map_eq_some'.mp hrun with ⟨⟨ro, rt, rv⟩, hr, hf⟩
      simp only [Prod.mk.injEq] at hf
      obtain ⟨rfl, rfl, -⟩ := hf
      have hp := c6h_persist ys _ _ _ _ _ hr s addr hlk
      simp [emitCount, romCount, hp]
    case _ hlk =>
      rcases Option.map_eq_some'.mp hrun with ⟨⟨ro, rt, rv⟩, hr, hf⟩
      simp only [Prod.mk.injEq] at hf
      obtain ⟨rfl, rfl, -⟩ := hf
      have hb : lookupAL (t ++ [(s, toBinary (vc + 16))]) s = some (toBinary (vc + 16)) := by
        rw [lookup_append_none _ _ _ hlk]
        simp [lookupAL]
      have hp := c6h_persist ys _ _ _ _ _ hr s _ hb
      simp [emitCount, romCount, hp]
  | cons x xs' ih =>
    intro t vc out t' vc' s ys hrun hs
    simp only [List.cons_append, secondPass] at hrun
    split at hrun
    case _ heq =>
      split at hrun
      case _ hnum =>
        rcases Option.map_eq_some'.mp hrun with ⟨⟨ro, rt, rv⟩, hr, hf⟩
        simp only [Prod.mk.injEq] at hf
        obtain ⟨rfl, rfl, -⟩ := hf
        rw [emitCount_cons_emit x xs' (Or.inl heq), List.get?_cons_succ]
        exact ih _ _ _ _ _ s ys hr hs
      case _ hnum =>
        split at hrun
        case _ addr hlk =>
          rcases Option.map_eq_some'.mp hrun with ⟨⟨ro, rt, rv⟩, hr, hf⟩
          simp only [Prod.mk.injEq] at hf
          obtain ⟨rfl, rfl, -⟩ := hf
          rw [emitCount_cons_emit x xs' (Or.inl heq), List.get?_cons_succ]
          exact ih _ _ _ _ _ s ys hr hs
        case _ hlk =>
          rcases Option.map_eq_some'.mp hrun with ⟨⟨ro, rt, rv⟩, hr, hf⟩
          simp only [Prod.mk.injEq] at hf
          obtain ⟨rfl, rfl, -⟩ := hf
          rw [emitCount_cons_emit x xs' (Or.inl heq), List.get?_cons_succ]
          exact ih _ _ _ _ _ s ys hr hs
    case _ heq =>
      split at hrun
      case _ cc dc jc hcc hdc hjc =>
        rcases Option.map_eq_some'.mp hrun with ⟨⟨ro, rt, rv⟩, hr, hf⟩
        simp only [Prod.mk.injEq] at hf
        obtain ⟨rfl, rfl, -⟩ := hf
        rw [emitCount_cons_emit x xs' (Or.inr heq), List.get?_cons_succ]
        exact ih _ _ _ _ _ s ys hr hs
      case _ => exact absurd hrun (by simp)
    case _ h1 h2 =>
      rw [emitCount_cons_skip x xs' h1 h2]
      exact ih _ _ _ _ _ s ys hrun hs

/-- C6.  Variable allocation in the second pass: (i) the fresh symbolic
A-operands — those not bound in the incoming table — are bound, in order
of first occurrence, to the addresses `to_binary(vc + 16)`,
`to_binary(vc + 16 + 1)`, ... (so with the initial variable count 0:
16, 17, 18, ...); (ii) an existing binding is never changed; and (iii)
every symbolic A-instruction emits `'0'` followed by the address the
final table binds its operand to — hence two A-instructions naming the
same symbol emit the same word, as in the spec's `@i @i @j` example
(see the witness). -/
theorem c6_variable_allocation (ls : List (List Char))
    (t : List (List Char × List Char)) (vc : Nat) (out : List (List Char))
    (t' : List (List Char × List Char)) (vc' : Nat)
    (hrun : secondPass ls t vc = some (out, t', vc')) :
    (∀ k name, (freshSymbols t ls).get? k = some name →
        lookupAL t' name = some (toBinary (vc + 16 + k))) ∧
    (∀ s a, lookupAL t s = some a → lookupAL t' s = some a) ∧
    (∀ xs s ys, ls = xs ++ ('@' :: s) :: ys → isNumericStr s = false →
        out.get? (emitCount xs) = some ('0' :: ((lookupAL t' s).getD []))) := by
  refine ⟨c6h_alloc ls t vc out t' vc' hrun, c6h_persist ls t vc out t' vc' hrun, ?_⟩
  intro xs s ys hdec hs
  exact c6h_emit xs t vc out t' vc' s ys (hdec ▸ hrun) hs

theorem c6_variable_allocation_witness :
    lookupAL (predefTable ++ [(chs "i", toBinary 16), (chs "j", toBinary 17)]) (chs "j")
      = some (toBinary (0 + 16 + 1)) ∧
    [chs "0000000000010000", chs "0000000000010000", chs "0000000000010001"].get?
        (emitCount [chs "@i"])
      = some ('0' :: ((lookupAL (predefTable ++
          [(chs "i", toBinary 16), (chs "j", toBinary 17)]) (chs "i")).getD [])) := by
  have h := c6_variable_allocation [chs "@i", chs "@i", chs "@j"] predefTable 0
    [chs "0000000000010000", chs "0000000000010000", chs "0000000000010001"]
    (predefTable ++ [(chs "i", toBinary 16), (chs "j", toBinary 17)]) 2 (by decide)
  exact ⟨h.1 1 (chs "j") (by decide),
    h.2.2 [chs "@i"] (chs "i") [chs "@j"] (by decide) (by decide)⟩

theorem step_nil (m : Mach) : runStraight [] m = some (m, none) := rfl

theorem step_aLoad (v : Int) (rest : List HInstr) (m : Mach) :
    runStraight (HInstr.aLoad v :: rest) m = runStraight rest ⟨v, m.d, m.ram⟩ := rfl

theorem step_DeqM (rest : List HInstr) (m : Mach) :
    runStraight (HInstr.cmd (chs "D") (chs "M") [] :: rest) m =
      runStraight rest ⟨m.a, w16 (m.ram m.a), m.ram⟩ := rfl

theorem step_MeqD (rest : List HInstr) (m : Mach) :
    runStraight (HInstr.cmd (chs "M") (chs "D") [] :: rest) m =
      runStraight rest ⟨m.a, m.d, upd m.ram m.a (w16 m.d)⟩ := rfl

theorem step_AeqDminusA (rest : List HInstr) (m : Mach) :
    runStraight (HInstr.cmd (chs "A") (chs "D-A") [] :: rest) m =
      runStraight rest ⟨w16 (m.d - m.a), m.d, m.ram⟩ := rfl

theorem step_AMeqMminus1 (rest : List HInstr) (m : Mach) :
    runStraight (HInstr.cmd (chs "AM") (chs "M-1") [] :: rest) m =
      runStraight rest ⟨w16 (m.ram m.a - 1), m.d, upd m.ram m.a (w16 (m.ram m.a - 1))⟩ := rfl

theorem step_AeqM (rest : List HInstr) (m : Mach) :
    runStraight (HInstr.cmd (chs "A") (chs "M") [] :: rest) m =
      runStraight rest ⟨w16 (m.ram m.a), m.d, m.ram⟩ := rfl

theorem step_DeqA (rest : List HInstr) (m : Mach) :
    runStraight (HInstr.cmd (chs "D") (chs "A") [] :: rest) m =
      runStraight rest ⟨m.a, w16 m.a, m.ram⟩ := rfl

theorem step_MeqDplus1 (rest : List HInstr) (m : Mach) :
    runStraight (HInstr.cmd (chs "M") (chs "D+1") [] :: rest) m =
      runStraight rest ⟨m.a, m.d, upd m.ram m.a (w16 (m.d + 1))⟩ := rfl

theorem step_DeqDplusA (rest : List HInstr) (m : Mach) :
    runStraight (HInstr.cmd (chs "D") (chs "D+A") [] :: rest) m =
      runStraight rest ⟨m.a, w16 (m.d + m.a), m.ram⟩ := rfl

theorem step_DeqDplusM (rest : List HInstr) (m : Mach) :
    runStraight (HInstr.cmd (chs "D") (chs "D+M") [] :: rest) m =
      runStraight rest ⟨m.a, w16 (m.d + m.ram m.a), m.ram⟩ := rfl

theorem step_AeqDminusM (rest : List HInstr) (m : Mach) :
    runStraight (HInstr.cmd (chs "A") (chs "D-M") [] :: rest) m =
      runStraight rest ⟨w16 (m.d - m.ram m.a), m.d, m.ram⟩ := rfl

theorem step_MeqDminusA (rest : List HInstr) (m : Mach) :
    runStraight (HInstr.cmd (chs "M") (chs "D-A") [] :: rest) m =
      runStraight rest ⟨m.a, m.d, upd m.ram m.a (w16 (m.d - m.a))⟩ := rfl

theorem step_jump0JMP (rest : List HInstr) (m : Mach) :
    runStraight (HInstr.cmd [] (chs "0") (chs "JMP") :: rest) m = some (m, some m.a) := rfl

theorem splitOnChar_ne_nil (sep : Char) (l : List Char) : splitOnChar sep l ≠ [] := by
  cases l with
  | nil => simp [splitOnChar]
  | cons c rest =>
    simp only [splitOnChar]
    split
    · split <;> simp
    · split <;> simp

theorem splitOnChar_append_cons (sep : Char) (a rest : List Char)
    (h : a.contains sep = false) :
    splitOnChar sep (a ++ sep :: rest) = a :: splitOnChar sep rest := by
  induction a with
  | nil =>
    simp only [List.nil_append, splitOnChar]
    rcases hsp : splitOnChar sep rest with _ | ⟨x, t⟩
    · exact absurd hsp (splitOnChar_ne_nil sep rest)
    · simp
  | cons c a' ih =>
    simp only [List.contains_cons, Bool.or_eq_false_iff] at h
    obtain ⟨hc, ha'⟩ := h
    have hcs : ¬c = sep := by
      intro hcc
      rw [hcc] at hc
      simp at hc
    simp only [List.cons_append, splitOnChar, List.append_eq, ih ha']
    rw [if_neg hcs]

theorem digits_no_char (s : List Char) (c : Char) (hc : c.isDigit = false)
    (h : s.all Char.isDigit = true) : s.contains c = false := by
  induction s with
  | nil => rfl
  | cons x s' ih =>
    simp only [List.all_cons, Bool.and_eq_true] at h
    simp only [List.contains_cons, Bool.or_eq_false_iff]
    constructor
    · by_cases hx : x = c
      · rw [hx] at h
        rw [h.1] at hc
        exact absurd hc (by simp)
      · exact beq_eq_false_iff_ne.mpr (fun hcx => hx hcx.symm)
    · exact ih h.2

theorem mapOpt_cons_some {α β : Type} (f : α → Option β) (x : α) (xs : List α)
    (y : β) (ys : List β) (h1 : f x = some y) (h2 : mapOpt f xs = some ys) :
    mapOpt f (x :: xs) = some (y :: ys) := by
  simp [mapOpt, h1, h2]

set_option maxRecDepth 8000 in
theorem popAsm_emit (fname : Option (List Char)) (seg bsym idx : List Char)
    (hseg : (seg, bsym) ∈ [(chs "argument", chs "ARG"), (chs "local", chs "LCL"),
      (chs "this", chs "THIS"), (chs "that", chs "THAT")]) :
    writePushPop fname (chs "C_POP") seg idx = some (popPtrAsm bsym idx) := by
  simp only [List.mem_cons, List.not_mem_nil, or_false, Prod.mk.injEq] at hseg
  rcases hseg with ⟨rfl, rfl⟩ | ⟨rfl, rfl⟩ | ⟨rfl, rfl⟩ | ⟨rfl, rfl⟩ <;> rfl

set_option maxRecDepth 8000 in
theorem popAsm_parse (bsym : List Char) (b : Int) (idx : List Char)
    (hb : parseHack ('@' :: bsym) = some (HInstr.aLoad b))
    (hbn : bsym.contains '\n' = false)
    (hidx : isNumericStr idx = true) :
    parseProg (popPtrAsm bsym idx) = some (popPtrInstrs b ((charsToNat idx : Nat) : Int)) := by
  have hall : idx.all Char.isDigit = true := by
    simp only [isNumericStr, Bool.and_eq_true] at hidx
    exact hidx.2
  have hin : ('@' :: idx).contains '\n' = false := by
    simp only [List.contains_cons, Bool.or_eq_false_iff]
    exact ⟨by decide, digits_no_char idx '\n' (by decide) hall⟩
  have hbn2 : ('@' :: bsym).contains '\n' = false := by
    simp only [List.contains_cons, Bool.or_eq_false_iff]
    exact ⟨by decide, hbn⟩
  have h1 : splitOnChar '\n' (popPtrAsm bsym idx) =
      ('@' :: bsym) :: chs "D=M" :: ('@' :: idx) :: chs "D=D+A" :: chs "@SP" ::
      chs "AM=M-1" :: chs "D=D+M" :: chs "A=D-M" :: chs "M=D-A" :: [[]] := by
    show splitOnChar '\n' (('@' :: bsym) ++ '\n' :: (chs "D=M" ++ '\n' :: (('@' :: idx) ++
      '\n' :: (chs "D=D+A" ++ '\n' :: (chs "@SP" ++ '\n' :: (chs "AM=M-1" ++ '\n' ::
      (chs "D=D+M" ++ '\n' :: (chs "A=D-M" ++ '\n' :: (chs "M=D-A" ++ '\n' :: []))))))))) = _
    rw [splitOnChar_append_cons _ _ _ hbn2, splitOnChar_append_cons _ _ _ (by decide),
        splitOnChar_append_cons _ _ _ hin, splitOnChar_append_cons _ _ _ (by decide),
        splitOnChar_append_cons _ _ _ (by decide), splitOnChar_append_cons _ _ _ (by decide),
        splitOnChar_append_cons _ _ _ (by decide), splitOnChar_append_cons _ _ _ (by decide),
        splitOnChar_append_cons _ _ _ (by decide)]
    rfl
  have hpidx : parseHack ('@' :: idx) = some (HInstr.aLoad ((charsToNat idx : Nat) : Int)) := by
    simp [parseHack, hidx]
  simp only [parseProg, h1]
  show mapOpt parseHack (('@' :: bsym) :: chs "D=M" :: ('@' :: idx) :: chs "D=D+A" ::
    chs "@SP" :: chs "AM=M-1" :: chs "D=D+M" :: chs "A=D-M" :: chs "M=D-A" :: []) = _
  refine mapOpt_cons_some _ _ _ _ _ hb ?_
  refine mapOpt_cons_some _ _ _ _ _ (by decide) ?_
  refine mapOpt_cons_some _ _ _ _ _ hpidx ?_
  refine mapOpt_cons_some _ _ _ _ _ (by decide) ?_
  refine mapOpt_cons_some _ _ _ _ _ (by decide) ?_
  refine mapOpt_cons_some _ _ _ _ _ (by decide) ?_
  refine mapOpt_cons_some _ _ _ _ _ (by decide) ?_
  refine mapOpt_cons_some _ _ _ _ _ (by decide) ?_
  refine mapOpt_cons_some _ _ _ _ _ (by decide) ?_
  rfl

theorem popPtr_exec (b i : Int) (m : Mach) (base sp v : Int)
    (hb : m.ram b = base) (hsp : m.ram 0 = sp) (hv : m.ram (sp - 1) = v)
    (hbr : 0 ≤ base) (hbr2 : base < 65536)
    (_hir : 0 ≤ i) (_hir2 : i ≤ 32767)
    (ht1 : 1 ≤ base + i) (ht2 : base + i ≤ 65535)
    (hsr : 2 ≤ sp) (hsr2 : sp ≤ 65535)
    (hvr : 0 ≤ v) (hvr2 : v < 65536) :
    runStraight (popPtrInstrs b i) m =
      some (⟨base + i, w16 (base + i + v), upd (upd m.ram 0 (sp - 1)) (base + i) v⟩, none) := by
  simp only [popPtrInstrs, step_aLoad, step_DeqM, step_DeqDplusA, step_AMeqMminus1,
    step_DeqDplusM, step_AeqDminusM, step_MeqDminusA, step_nil]
  rw [hb, show w16 base = base from by simp only [w16]; omega]
  rw [hsp, show w16 (sp - 1) = sp - 1 from by simp only [w16]; omega]
  rw [show w16 (base + i) = base + i from by simp only [w16]; omega]
  rw [show upd m.ram 0 (sp - 1) (sp - 1) = v from by
    simp only [upd, hv]; split_ifs <;> omega]
  rw [show w16 (w16 (base + i + v) - v) = base + i from by simp only [w16]; omega]
  rw [show w16 (w16 (base + i + v) - (base + i)) = v from by simp only [w16]; omega]

/-- C2.  For every `pop` of a pointer-based segment (argument, local,
this, that) with a numeric index string: the command translates to the
template instantiated with the segment's base symbol and the index, that
assembly parses to the nine instructions of `popPtrInstrs`, and running
them on a machine whose segment base is `base` and stack pointer is `sp`
(with the listed range side conditions) stores the old top of stack
`RAM[sp - 1]` into `RAM[base + i]`, decrements SP by exactly one, and
changes no other memory cell — even though the code uses the trick
`D=D+M; A=D-M; M=D-A` instead of a scratch register. -/
theorem c2_pop_pointer_segments (st : CW) (seg bsym idx : List Char) (b : Int)
    (hseg : (seg, bsym, b) ∈ [(chs "argument", chs "ARG", (2 : Int)),
      (chs "local", chs "LCL", 1), (chs "this", chs "THIS", 3),
      (chs "that", chs "THAT", 4)])
    (hidx : isNumericStr idx = true) (m : Mach) (base sp v : Int)
    (hb : m.ram b = base) (hsp : m.ram 0 = sp) (hv : m.ram (sp - 1) = v)
    (hbr : 0 ≤ base) (hbr2 : base < 65536)
    (hir2 : (charsToNat idx : Int) ≤ 32767)
    (ht1 : 1 ≤ base + (charsToNat idx : Int)) (ht2 : base + (charsToNat idx : Int) ≤ 65535)
    (hsr : 2 ≤ sp) (hsr2 : sp ≤ 65535)
    (hvr : 0 ≤ v) (hvr2 : v < 65536) :
    translateCmd st (VMCmd.pop seg idx) = some (st, popPtrAsm bsym idx) ∧
    parseProg (popPtrAsm bsym idx) =
      some (popPtrInstrs b ((charsToNat idx : Nat) : Int)) ∧
    (runStraight (popPtrInstrs b ((charsToNat idx : Nat) : Int)) m).isSome = true ∧
    (runResult (popPtrInstrs b ((charsToNat idx : Nat) : Int)) m).2 = none ∧
    (runResult (popPtrInstrs b ((charsToNat idx : Nat) : Int)) m).1.ram
      (base + (charsToNat idx : Int)) = v ∧
    (runResult (popPtrInstrs b ((charsToNat idx : Nat) : Int)) m).1.ram 0 = sp - 1 ∧
    (∀ j, ¬j = 0 → ¬j = base + (charsToNat idx : Int) →
      (runResult (popPtrInstrs b ((charsToNat idx : Nat) : Int)) m).1.ram j = m.ram j) := by
  have hseg2 : (seg, bsym) ∈ [(chs "argument", chs "ARG"), (chs "local", chs "LCL"),
      (chs "this", chs "THIS"), (chs "that", chs "THAT")] := by
    simp only [List.mem_cons, List.not_mem_nil, or_false, Prod.mk.injEq] at hseg ⊢
    rcases hseg with ⟨h1, h2, h3⟩ | ⟨h1, h2, h3⟩ | ⟨h1, h2, h3⟩ | ⟨h1, h2, h3⟩ <;>
      simp [h1, h2]
  have hbp : parseHack ('@' :: bsym) = some (HInstr.aLoad b) ∧ bsym.contains '\n' = false := by
    simp only [List.mem_cons, List.not_mem_nil, or_false, Prod.mk.injEq] at hseg
    rcases hseg with ⟨h1, h2, h3⟩ | ⟨h1, h2, h3⟩ | ⟨h1, h2, h3⟩ | ⟨h1, h2, h3⟩ <;>
      rw [h2, h3] <;> exact ⟨by decide, by decide⟩
  have hkey := popPtr_exec b ((charsToNat idx : Nat) : Int) m base sp v hb hsp hv
    hbr hbr2 (by omega) hir2 ht1 ht2 hsr hsr2 hvr hvr2
  refine ⟨?_, popAsm_parse bsym b idx hbp.1 hbp.2 hidx, ?_, ?_, ?_, ?_, ?_⟩
  · simp only [translateCmd, popAsm_emit st.filename seg bsym idx hseg2, Option.map_some']
  · rw [hkey]; rfl
  · rw [runResult, hkey]; rfl
  · rw [runResult, hkey]
    simp only [Option.getD_some, upd]
    split_ifs <;> omega
  · rw [runResult, hkey]
    simp only [Option.getD_some, upd]
    split_ifs <;> omega
  · intro j hj0 hjt
    rw [runResult, hkey]
    simp only [Option.getD_some, upd]
    rw [if_neg hjt, if_neg hj0]

theorem c2_pop_pointer_segments_witness :
    translateCmd cw0 (VMCmd.pop (chs "local") (chs "3")) =
      some (cw0, popPtrAsm (chs "LCL") (chs "3")) ∧
    (runResult (popPtrInstrs 1 ((charsToNat (chs "3") : Nat) : Int)) c2DemoMach).1.ram 403
      = 99 ∧
    (runResult (popPtrInstrs 1 ((charsToNat (chs "3") : Nat) : Int)) c2DemoMach).1.ram 0
      = 309 := by
  have h := c2_pop_pointer_segments cw0 (chs "local") (chs "LCL") (chs "3") 1 (by decide)
    (by decide) c2DemoMach 400 310 99 (by decide) (by decide) (by decide) (by decide)
    (by decide) (by decide) (by decide) (by decide) (by decide) (by decide) (by decide)
    (by decide)
  refine ⟨h.1, ?_, ?_⟩
  · have hc := h.2.2.2.2.1
    rw [show (400 : Int) + ((charsToNat (chs "3") : Nat) : Int) = 403 from by decide] at hc
    exact hc
  · have hc := h.2.2.2.2.2.1
    rw [show (310 : Int) - 1 = 309 from by decide] at hc
    exact hc

set_option maxHeartbeats 1600000 in
theorem return_exec (m : Mach) (lcl arg sp ra rv t1 t2 t3 t4 : Int)
    (h1 : m.ram 1 = lcl) (h2 : m.ram 2 = arg) (h0 : m.ram 0 = sp)
    (hra : m.ram (lcl - 5) = ra) (hv1 : m.ram (lcl - 1) = t1)
    (hv2 : m.ram (lcl - 2) = t2) (hv3 : m.ram (lcl - 3) = t3)
    (hv4 : m.ram (lcl - 4) = t4) (hrv : m.ram (sp - 1) = rv)
    (ha1 : 256 ≤ arg) (ha2 : arg + 5 ≤ lcl) (hl2 : lcl ≤ 32767)
    (hs1 : 257 ≤ sp) (hs2 : sp ≤ 32767)
    (hb1 : 0 ≤ ra) (hb2 : ra < 65536) (hb3 : 0 ≤ rv) (hb4 : rv < 65536)
    (hb5 : 0 ≤ t1) (hb6 : t1 < 65536) (hb7 : 0 ≤ t2) (hb8 : t2 < 65536)
    (hb9 : 0 ≤ t3) (hb10 : t3 < 65536) (hb11 : 0 ≤ t4) (hb12 : t4 < 65536) :
    runStraight returnInstrs m = some (⟨ra, t4,
      upd (upd (upd (upd (upd (upd (upd (upd (upd (upd (upd (upd (upd m.ram 13 lcl) 14 ra) 0 (sp - 1)) arg rv) 0 (arg + 1)) 13 (lcl - 1)) 4 t1) 13 (lcl - 2)) 3 t2) 13 (lcl - 3)) 2 t3) 13 (lcl - 4)) 1 t4⟩, some ra) := by
  have wlcl : w16 lcl = lcl := by simp only [w16]; omega
  have wra : w16 ra = ra := by simp only [w16]; omega
  have wrv : w16 rv = rv := by simp only [w16]; omega
  have warg : w16 arg = arg := by simp only [w16]; omega
  have wsp1 : w16 (sp - 1) = sp - 1 := by simp only [w16]; omega
  have warg1 : w16 (arg + 1) = arg + 1 := by simp only [w16]; omega
  have wl5 : w16 (lcl - 5) = lcl - 5 := by simp only [w16]; omega
  have wl1 : w16 (lcl - 1) = lcl - 1 := by simp only [w16]; omega
  have wm1 : w16 (lcl - 1 - 1) = lcl - 2 := by simp only [w16]; omega
  have wm2 : w16 (lcl - 2 - 1) = lcl - 3 := by simp only [w16]; omega
  have wm3 : w16 (lcl - 3 - 1) = lcl - 4 := by simp only [w16]; omega
  have wt1 : w16 t1 = t1 := by simp only [w16]; omega
  have wt2 : w16 t2 = t2 := by simp only [w16]; omega
  have wt3 : w16 t3 = t3 := by simp only [w16]; omega
  have wt4 : w16 t4 = t4 := by simp only [w16]; omega
  simp only [returnInstrs, step_aLoad, step_DeqM]
  rw [h1, wlcl]
  simp only [step_MeqD, step_aLoad, step_AeqDminusA]
  rw [wlcl, wl5]
  simp only [step_DeqM]
  rw [show (upd m.ram 13 lcl) (lcl - 5) = ra from by simp only [upd, hra]; split_ifs <;> omega]
  rw [wra]
  simp only [step_aLoad, step_MeqD]
  rw [wra]
  simp only [step_aLoad, step_AMeqMminus1]
  rw [show (upd (upd m.ram 13 lcl) 14 ra) 0 = sp from by simp only [upd, h0]; split_ifs <;> omega]
  rw [wsp1]
  simp only [step_DeqM]
  rw [show (upd (upd (upd m.ram 13 lcl) 14 ra) 0 (sp - 1)) (sp - 1) = rv from by simp only [upd, hrv]; split_ifs <;> omega]
  rw [wrv]
  simp only [step_aLoad, step_AeqM]
  rw [show (upd (upd (upd m.ram 13 lcl) 14 ra) 0 (sp - 1)) 2 = arg from by simp only [upd, h2]; split_ifs <;> omega]
  rw [warg]
  simp only [step_MeqD, step_DeqA]
  rw [wrv, warg]
  simp only [step_aLoad, step_MeqDplus1]
  rw [warg1]
  simp only [step_aLoad, step_AMeqMminus1]
  rw [show (upd (upd (upd (upd (upd m.ram 13 lcl) 14 ra) 0 (sp - 1)) arg rv) 0 (arg + 1)) 13 = lcl from by simp only [upd]; split_ifs <;> omega]
  rw [wl1]
  simp only [step_DeqM]
  rw [show (upd (upd (upd (upd (upd (upd m.ram 13 lcl) 14 ra) 0 (sp - 1)) arg rv) 0 (arg + 1)) 13 (lcl - 1)) (lcl - 1) = t1 from by simp only [upd, hv1]; split_ifs <;> omega]
  rw [wt1]
  simp only [step_aLoad, step_MeqD]
  rw [wt1]
  simp only [step_aLoad, step_AMeqMminus1]
  rw [show (upd (upd (upd (upd (upd (upd (upd m.ram 13 lcl) 14 ra) 0 (sp - 1)) arg rv) 0 (arg + 1)) 13 (lcl - 1)) 4 t1) 13 = lcl - 1 from by simp only [upd]; split_ifs <;> omega]
  rw [wm1]
  simp only [step_DeqM]
  rw [show (upd (upd (upd (upd (upd (upd (upd (upd m.ram 13 lcl) 14 ra) 0 (sp - 1)) arg rv) 0 (arg + 1)) 13 (lcl - 1)) 4 t1) 13 (lcl - 2)) (lcl - 2) = t2 from by simp only [upd, hv2]; split_ifs <;> omega]
  rw [wt2]
  simp only [step_aLoad, step_MeqD]
  rw [wt2]
  simp only [step_aLoad, step_AMeqMminus1]
  rw [show (upd (upd (upd (upd (upd (upd (upd (upd (upd m.ram 13 lcl) 14 ra) 0 (sp - 1)) arg rv) 0 (arg + 1)) 13 (lcl - 1)) 4 t1) 13 (lcl - 2)) 3 t2) 13 = lcl - 2 from by simp only [upd]; split_ifs <;> omega]
  rw [wm2]
  simp only [step_DeqM]
  rw [show (upd (upd (upd (upd (upd (upd (upd (upd (upd (upd m.ram 13 lcl) 14 ra) 0 (sp - 1)) arg rv) 0 (arg + 1)) 13 (lcl - 1)) 4 t1) 13 (lcl - 2)) 3 t2) 13 (lcl - 3)) (lcl - 3) = t3 from by simp only [upd, hv3]; split_ifs <;> omega]
  rw [wt3]
  simp only [step_aLoad, step_MeqD]
  rw [wt3]
  simp only [step_aLoad, step_AMeqMminus1]
  rw [show (upd (upd (upd (upd (upd (upd (upd (upd (upd (upd (upd m.ram 13 lcl) 14 ra) 0 (sp - 1)) arg rv) 0 (arg + 1)) 13 (lcl - 1)) 4 t1) 13 (lcl - 2)) 3 t2) 13 (lcl - 3)) 2 t3) 13 = lcl - 3 from by simp only [upd]; split_ifs <;> omega]
  rw [wm3]
  simp only [step_DeqM]
  rw [show (upd (upd (upd (upd (upd (upd (upd (upd (upd (upd (upd (upd m.ram 13 lcl) 14 ra) 0 (sp - 1)) arg rv) 0 (arg + 1)) 13 (lcl - 1)) 4 t1) 13 (lcl - 2)) 3 t2) 13 (lcl - 3)) 2 t3) 13 (lcl - 4)) (lcl - 4) = t4 from by simp only [upd, hv4]; split_ifs <;> omega]
  rw [wt4]
  simp only [step_aLoad, step_MeqD]
  rw [wt4]
  simp only [step_aLoad, step_AeqM]
  rw [show (upd (upd (upd (upd (upd (upd (upd (upd (upd (upd (upd (upd (upd m.ram 13 lcl) 14 ra) 0 (sp - 1)) arg rv) 0 (arg + 1)) 13 (lcl - 1)) 4 t1) 13 (lcl - 2)) 3 t2) 13 (lcl - 3)) 2 t3) 13 (lcl - 4)) 1 t4) 14 = ra from by simp only [upd]; split_ifs <;> omega]
  rw [wra]
  simp only [step_jump0JMP]

set_option maxRecDepth 8000 in
set_option maxHeartbeats 1600000 in
/-- C1.  Every `return` VM command emits the fixed epilogue `returnAsm`,
which parses to `returnInstrs`; executing it on a machine with a valid
frame (LCL = `lcl`, ARG = `arg`, SP = `sp`, with the listed range side
conditions) first snapshots the frame into RAM[13] and the return
address `*(lcl - 5)` into RAM[14], stores the popped top of stack
`RAM[sp-1]` into `*ARG`, sets SP to `arg + 1`, restores THAT, THIS, ARG,
LCL from `*(frame-1)` ... `*(frame-4)`, and finally jumps to the
snapshotted return address: the jump target is `*(lcl - 5)` of the
ORIGINAL frame — captured before LCL was overwritten with `*(frame-4)` —
even though RAM[13] has been walked down to `lcl - 4` by then. -/
theorem c1_return_epilogue (st : CW) (m : Mach) (lcl arg sp ra rv t1 t2 t3 t4 : Int)
    (h1 : m.ram 1 = lcl) (h2 : m.ram 2 = arg) (h0 : m.ram 0 = sp)
    (hra : m.ram (lcl - 5) = ra) (hv1 : m.ram (lcl - 1) = t1)
    (hv2 : m.ram (lcl - 2) = t2) (hv3 : m.ram (lcl - 3) = t3)
    (hv4 : m.ram (lcl - 4) = t4) (hrv : m.ram (sp - 1) = rv)
    (ha1 : 256 ≤ arg) (ha2 : arg + 5 ≤ lcl) (hl2 : lcl ≤ 32767)
    (hs1 : 257 ≤ sp) (hs2 : sp ≤ 32767)
    (hb1 : 0 ≤ ra) (hb2 : ra < 65536) (hb3 : 0 ≤ rv) (hb4 : rv < 65536)
    (hb5 : 0 ≤ t1) (hb6 : t1 < 65536) (hb7 : 0 ≤ t2) (hb8 : t2 < 65536)
    (hb9 : 0 ≤ t3) (hb10 : t3 < 65536) (hb11 : 0 ≤ t4) (hb12 : t4 < 65536) :
    translateCmd st VMCmd.ret = some (st, returnAsm) ∧
    parseProg returnAsm = some returnInstrs ∧
    (runStraight returnInstrs m).isSome = true ∧
    (runResult returnInstrs m).2 = some ra ∧
    (runResult returnInstrs m).1.ram 14 = ra ∧
    (runResult returnInstrs m).1.ram arg = rv ∧
    (runResult returnInstrs m).1.ram 0 = arg + 1 ∧
    (runResult returnInstrs m).1.ram 4 = t1 ∧
    (runResult returnInstrs m).1.ram 3 = t2 ∧
    (runResult returnInstrs m).1.ram 2 = t3 ∧
    (runResult returnInstrs m).1.ram 1 = t4 ∧
    (runResult returnInstrs m).1.ram 13 = lcl - 4 ∧
    (runResult returnInstrs m).1.a = ra := by
  have hkey := return_exec m lcl arg sp ra rv t1 t2 t3 t4 h1 h2 h0 hra hv1 hv2 hv3 hv4
    hrv ha1 ha2 hl2 hs1 hs2 hb1 hb2 hb3 hb4 hb5 hb6 hb7 hb8 hb9 hb10 hb11 hb12
  refine ⟨rfl, by decide, ?_, ?_, ?_, ?_, ?_, ?_, ?_, ?_, ?_, ?_, ?_⟩
  · rw [hkey]; rfl
  · rw [runResult, hkey]; rfl
  · rw [runResult, hkey]; simp only [Option.getD_some, upd]; split_ifs <;> omega
  · rw [runResult, hkey]; simp only [Option.getD_some, upd]; split_ifs <;> omega
  · rw [runResult, hkey]; simp only [Option.getD_some, upd]; split_ifs <;> omega
  · rw [runResult, hkey]; simp only [Option.getD_some, upd]; split_ifs <;> omega
  · rw [runResult, hkey]; simp only [Option.getD_some, upd]; split_ifs <;> omega
  · rw [runResult, hkey]; simp only [Option.getD_some, upd]; split_ifs <;> omega
  · rw [runResult, hkey]; simp only [Option.getD_some, upd]; split_ifs <;> omega
  · rw [runResult, hkey]; simp only [Option.getD_some, upd]; split_ifs <;> omega
  · rw [runResult, hkey]; rfl

theorem c1_return_epilogue_witness :
    (runResult returnInstrs c1DemoMach).2 = some 777 ∧
    (runResult returnInstrs c1DemoMach).1.ram 280 = 42 ∧
    (runResult returnInstrs c1DemoMach).1.ram 0 = 281 ∧
    (runResult returnInstrs c1DemoMach).1.ram 1 = 11 ∧
    (runResult returnInstrs c1DemoMach).1.ram 14 = 777 := by
  have h := c1_return_epilogue cw0 c1DemoMach 300 280 305 777 42 14 13 12 11
    (by decide) (by decide) (by decide) (by decide) (by decide) (by decide) (by decide)
    (by decide) (by decide) (by decide) (by decide) (by decide) (by decide) (by decide)
    (by decide) (by decide) (by decide) (by decide) (by decide) (by decide) (by decide)
    (by decide) (by decide) (by decide) (by decide) (by decide)
  refine ⟨h.2.2.2.1, h.2.2.2.2.2.1, ?_, h.2.2.2.2.2.2.2.2.2.2.1, h.2.2.2.2.1⟩
  have hc := h.2.2.2.2.2.2.1
  rw [show (280 : Int) + 1 = 281 from by decide] at hc
  exact hc

theorem group_comp (op : List Char) (h : lookupAL COMMAND_GROUP op = some (chs "eq_gt_lt")) :
    isCompOp op = true :=
  (by decide : ∀ p ∈ COMMAND_GROUP, p.2 = chs "eq_gt_lt" → isCompOp p.1 = true) _
    (lookup_mem _ _ _ h) rfl

theorem group_noncomp (op grp : List Char) (h : lookupAL COMMAND_GROUP op = some grp)
    (hne : ¬grp = chs "eq_gt_lt") : isCompOp op = false :=
  (by decide : ∀ p ∈ COMMAND_GROUP, ¬p.2 = chs "eq_gt_lt" → isCompOp p.1 = false) _
    (lookup_mem _ _ _ h) hne

theorem translateCmd_state (st : CW) (c : VMCmd) (r : CW × List Char)
    (h : translateCmd st c = some r) :
    r.1.filename = st.filename ∧
    r.1.symbolIndex = st.symbolIndex + (if isCompCmd c then 1 else 0) ∧
    r.1.functionName = fnAfter st.functionName c := by
  cases c with
  | push seg idx =>
    simp only [translateCmd] at h
    rcases Option.map_eq_some'.mp h with ⟨out, -, hf⟩
    subst hf
    simp [isCompCmd, fnAfter]
  | pop seg idx =>
    simp only [translateCmd] at h
    rcases Option.map_eq_some'.mp h with ⟨out, -, hf⟩
    subst hf
    simp [isCompCmd, fnAfter]
  | arith op =>
    simp only [translateCmd, writeArithmetic] at h
    split at h
    · exact absurd h (by simp)
    case _ grp hgrp =>
      split at h
      case _ tpl ins htpl hins =>
        split at h
        case _ hgl =>
          injection h with h
          subst h
          simp [isCompCmd, fnAfter, group_comp op (hgl ▸ hgrp)]
        case _ hgl =>
          injection h with h
          subst h
          simp [isCompCmd, fnAfter, group_noncomp op grp hgrp hgl]
      case _ => exact absurd h (by simp)
  | label l =>
    simp only [translateCmd] at h
    injection h with h
    subst h
    simp [isCompCmd, fnAfter]
  | goto l =>
    simp only [translateCmd] at h
    injection h with h
    subst h
    simp [isCompCmd, fnAfter]
  | ifgoto l =>
    simp only [translateCmd] at h
    injection h with h
    subst h
    simp [isCompCmd, fnAfter]
  | func f n =>
    simp only [translateCmd, writeFunction] at h
    rcases Option.map_eq_some'.mp h with ⟨nv, -, hf⟩
    subst hf
    simp [isCompCmd, fnAfter]
  | call f n =>
    simp only [translateCmd] at h
    injection h with h
    subst h
    simp [isCompCmd, fnAfter, writeCall]
  | ret =>
    simp only [translateCmd] at h
    injection h with h
    subst h
    simp [isCompCmd, fnAfter]

set_option maxRecDepth 8000 in
theorem writeArith_comp (st : CW) (op : List Char) (hop : isCompOp op = true) :
    translateCmd st (VMCmd.arith op) =
      some ({ st with symbolIndex := st.symbolIndex + 1 },
        compChunkSpliced ((lookupAL ASM_INSERT op).getD []) st.symbolIndex) := by
  have hcase : (op = chs "eq" ∨ op = chs "gt") ∨ op = chs "lt" := by
    simp only [isCompOp, Bool.or_eq_true, decide_eq_true_eq] at hop
    exact hop
  rcases hcase with (rfl | rfl) | rfl <;> rfl

theorem compCountT_cons (tc : List Char × VMCmd) (rest : List (List Char × VMCmd)) :
    compCountT (tc :: rest) = (if isCompCmd tc.2 = true then 1 else 0) + compCountT rest := by
  by_cases hc : isCompCmd tc.2 = true <;> simp [compCountT, List.filter_cons, hc] <;> omega

theorem lastFnT_cons (f : Option (List Char)) (tc : List Char × VMCmd)
    (rest : List (List Char × VMCmd)) :
    lastFnT f (tc :: rest) = lastFnT (fnAfter f tc.2) rest := by
  rcases tc with ⟨tg, c⟩
  cases c <;> rfl

theorem runTagged_append (xs ys : List (List Char × VMCmd)) : ∀ st : CW,
    runTagged st (xs ++ ys) =
      if (runTagged st xs).2.2 = true then
        ((runTagged (runTagged st xs).1 ys).1,
         (runTagged st xs).2.1 ++ (runTagged (runTagged st xs).1 ys).2.1,
         (runTagged (runTagged st xs).1 ys).2.2)
      else runTagged st xs := by
  induction xs with
  | nil =>
    intro st
    simp [runTagged]
  | cons tc rest ih =>
    intro st
    simp only [List.cons_append, runTagged]
    rcases htc : translateCmd { st with filename := some tc.1 } tc.2 with _ | r
    · simp
    · simp only [List.append_eq]
      rw [ih r.1]
      by_cases hok : (runTagged r.1 rest).2.2 = true
      · simp [hok]
      · simp [hok]

theorem runTagged_ok_prefix (xs ys : List (List Char × VMCmd)) (st : CW)
    (h : (runTagged st (xs ++ ys)).2.2 = true) : (runTagged st xs).2.2 = true := by
  rw [runTagged_append] at h
  by_cases hok : (runTagged st xs).2.2 = true
  · exact hok
  · rw [if_neg hok] at h
    exact absurd h hok

theorem runTagged_ok_suffix (xs ys : List (List Char × VMCmd)) (st : CW)
    (h : (runTagged st (xs ++ ys)).2.2 = true) :
    (runTagged (runTagged st xs).1 ys).2.2 = true := by
  have hp := runTagged_ok_prefix xs ys st h
  rw [runTagged_append, if_pos hp] at h
  exact h

theorem runTagged_sym_mono (tcs : List (List Char × VMCmd)) : ∀ st : CW,
    st.symbolIndex ≤ (runTagged st tcs).1.symbolIndex := by
  induction tcs with
  | nil => intro st; exact le_refl _
  | cons tc rest ih =>
    intro st
    rcases htc : translateCmd { st with filename := some tc.1 } tc.2 with _ | r
    · simp only [runTagged, htc]
      exact le_refl _
    · simp only [runTagged, htc]
      have h2 := (translateCmd_state _ _ _ htc).2.1
      simp only [] at h2
      exact le_trans (by split at h2 <;> omega) (ih r.1)

theorem runTagged_ok_sym (tcs : List (List Char × VMCmd)) : ∀ st : CW,
    (runTagged st tcs).2.2 = true →
    (runTagged st tcs).1.symbolIndex = st.symbolIndex + compCountT tcs := by
  induction tcs with
  | nil =>
    intro st _
    simp [runTagged, compCountT]
  | cons tc rest ih =>
    intro st hok
    rcases htc : translateCmd { st with filename := some tc.1 } tc.2 with _ | r
    · simp only [runTagged, htc] at hok
      simp at hok
    · simp only [runTagged, htc] at hok ⊢
      have h2 := (translateCmd_state _ _ _ htc).2.1
      simp only [] at h2
      rw [ih r.1 hok, h2, compCountT_cons]
      split <;> omega

theorem runTagged_ok_fn (tcs : List (List Char × VMCmd)) : ∀ st : CW,
    (runTagged st tcs).2.2 = true →
    (runTagged st tcs).1.functionName = lastFnT st.functionName tcs := by
  induction tcs with
  | nil =>
    intro st _
    rfl
  | cons tc rest ih =>
    intro st hok
    rcases htc : translateCmd { st with filename := some tc.1 } tc.2 with _ | r
    · simp only [runTagged, htc] at hok
      simp at hok
    · simp only [runTagged, htc] at hok ⊢
      have h3 := (translateCmd_state _ _ _ htc).2.2
      rw [ih r.1 hok, lastFnT_cons, h3]

theorem runTagged_ok_len (tcs : List (List Char × VMCmd)) : ∀ st : CW,
    (runTagged st tcs).2.2 = true → (runTagged st tcs).2.1.length = tcs.length := by
  induction tcs with
  | nil =>
    intro st _
    rfl
  | cons tc rest ih =>
    intro st hok
    rcases htc : translateCmd { st with filename := some tc.1 } tc.2 with _ | r
    · simp only [runTagged, htc] at hok
      simp at hok
    · simp only [runTagged, htc] at hok ⊢
      simp only [List.length_cons]
      rw [ih r.1 hok]

theorem runCmds_eq_tagged (cmds : List VMCmd) (tag : List Char) : ∀ st : CW,
    st.filename = some tag → runCmds st cmds = runTagged st (cmds.map (fun c => (tag, c))) := by
  induction cmds with
  | nil => intro st _; rfl
  | cons c rest ih =>
    intro st h
    have he : { st with filename := some tag } = st := by
      cases st
      simp only [] at h ⊢
      rw [h]
    simp only [List.map_cons, runCmds, runTagged, he]
    rcases htc : translateCmd st c with _ | r
    · simp only [htc, he]
    · simp only [htc]
      have hf : r.1.filename = some tag := by
        rw [(translateCmd_state _ _ _ htc).1, h]
      rw [ih r.1 hf]

theorem runTagged_proj_eq (tcs : List (List Char × VMCmd)) (a b : CW)
    (hfn : a.functionName = b.functionName) (hsy : a.symbolIndex = b.symbolIndex)
    (hci : a.callIndex = b.callIndex) :
    (runTagged a tcs).2 = (runTagged b tcs).2 ∧
    (runTagged a tcs).1.functionName = (runTagged b tcs).1.functionName ∧
    (runTagged a tcs).1.symbolIndex = (runTagged b tcs).1.symbolIndex ∧
    (runTagged a tcs).1.callIndex = (runTagged b tcs).1.callIndex := by
  cases tcs with
  | nil => exact ⟨rfl, hfn, hsy, hci⟩
  | cons tc rest =>
    have he : { a with filename := some tc.1 } = { b with filename := some tc.1 } := by
      cases a
      cases b
      simp only [] at hfn hsy hci ⊢
      rw [hfn, hsy, hci]
    simp only [runTagged, he]
    exact ⟨by trivial, by trivial, by trivial, by trivial⟩

theorem runUnit_tagged (mods : List (List Char × List VMCmd)) : ∀ st : CW,
    (runUnit st mods).2 = (runTagged st (unitCmds mods)).2 ∧
    (runUnit st mods).1.symbolIndex = (runTagged st (unitCmds mods)).1.symbolIndex := by
  induction mods with
  | nil => intro st; exact ⟨rfl, rfl⟩
  | cons mo rest ih =>
    intro st
    have hu : unitCmds (mo :: rest) =
        mo.2.map (fun c => (mo.1, c)) ++ unitCmds rest := by
      simp [unitCmds]
    have hmap := runCmds_eq_tagged mo.2 mo.1 { st with filename := some mo.1 } rfl
    have hins := runTagged_proj_eq (mo.2.map (fun c => (mo.1, c)))
      { st with filename := some mo.1 } st rfl rfl rfl
    have hcont := runTagged_proj_eq (unitCmds rest)
      (runTagged { st with filename := some mo.1 } (mo.2.map (fun c => (mo.1, c)))).1
      (runTagged st (mo.2.map (fun c => (mo.1, c)))).1
      hins.2.1 hins.2.2.1 hins.2.2.2
    simp only [runUnit, runModule, hu, hmap, runTagged_append]
    by_cases hok : (runTagged st (mo.2.map (fun c => (mo.1, c)))).2.2 = true
    · have hokA : (runTagged { st with filename := some mo.1 }
          (mo.2.map (fun c => (mo.1, c)))).2.2 = true := by
        rw [congrArg Prod.snd hins.1]
        exact hok
      rw [if_pos hokA, if_pos hok]
      refine ⟨Prod.ext ?_ ?_, ?_⟩
      · simp only []
        rw [congrArg Prod.fst hins.1,
          congrArg Prod.fst (ih (runTagged { st with filename := some mo.1 }
            (mo.2.map (fun c => (mo.1, c)))).1).1,
          congrArg Prod.fst hcont.1]
      · simp only []
        rw [congrArg Prod.snd (ih (runTagged { st with filename := some mo.1 }
            (mo.2.map (fun c => (mo.1, c)))).1).1,
          congrArg Prod.snd hcont.1]
      · simp only []
        rw [(ih (runTagged { st with filename := some mo.1 }
            (mo.2.map (fun c => (mo.1, c)))).1).2,
          hcont.2.2.1]
    · have hokA : ¬(runTagged { st with filename := some mo.1 }
          (mo.2.map (fun c => (mo.1, c)))).2.2 = true := by
        rw [congrArg Prod.snd hins.1]
        exact hok
      rw [if_neg hokA, if_neg hok]
      refine ⟨Prod.ext ?_ ?_, ?_⟩
      · simp only []
        rw [congrArg Prod.fst hins.1]
      · simp only []
        rcases hb : (runTagged st (List.map (fun c => (mo.1, c)) mo.2)).2.2
        · rfl
        · exact absurd hb hok
      · exact hins.2.2.1

theorem charsToNat_append_digit (xs : List Char) (c : Char) :
    charsToNat (xs ++ [c]) = charsToNat xs * 10 + (c.toNat - 48) := by
  simp [charsToNat, List.foldl_append]

theorem digitChr_toNat (d : Nat) (h : d < 10) : (digitChr d).toNat - 48 = d := by
  interval_cases d <;> decide

theorem decDigitsF_val : ∀ fuel n, n < fuel → charsToNat (decDigitsF fuel n) = n := by
  intro fuel
  induction fuel with
  | zero => intro n h; omega
  | succ fuel ih =>
    intro n h
    simp only [decDigitsF]
    by_cases h10 : n < 10
    · rw [if_pos h10]
      have hd := digitChr_toNat n h10
      simp [charsToNat]
      omega
    · rw [if_neg h10]
      rw [charsToNat_append_digit, ih (n / 10) (by omega), digitChr_toNat (n % 10) (by omega)]
      omega

theorem charsToNat_natToDec (n : Nat) : charsToNat (natToDec n) = n :=
  decDigitsF_val (n + 1) n (by omega)

theorem natToDec_inj (j k : Nat) (h : natToDec j = natToDec k) : j = k := by
  have hj := charsToNat_natToDec j
  rw [h, charsToNat_natToDec] at hj
  exact hj.symm

theorem trueLabel_inj (j k : Nat) (h : ¬j = k) : trueLabel j ≠ trueLabel k := by
  intro he
  exact h (natToDec_inj j k ((List.append_right_inj _).mp he))

theorem contLabel_inj (j k : Nat) (h : ¬j = k) : contLabel j ≠ contLabel k := by
  intro he
  exact h (natToDec_inj j k ((List.append_right_inj _).mp he))

theorem trueLabel_ne_contLabel (j k : Nat) : trueLabel j ≠ contLabel k := by
  intro h
  have h0 := congrArg List.head? h
  rw [show (trueLabel j).head? = some 'T' from rfl,
      show (contLabel k).head? = some 'C' from rfl] at h0
  simp at h0

set_option maxRecDepth 8000 in
theorem runTagged_cons_comp (st : CW) (tg op : List Char)
    (rest : List (List Char × VMCmd)) (hop : isCompOp op = true) :
    runTagged st ((tg, VMCmd.arith op) :: rest) =
      ((runTagged { st with filename := some tg, symbolIndex := st.symbolIndex + 1 } rest).1,
       compChunkSpliced ((lookupAL ASM_INSERT op).getD []) st.symbolIndex ::
         (runTagged { st with filename := some tg, symbolIndex := st.symbolIndex + 1 } rest).2.1,
       (runTagged { st with filename := some tg, symbolIndex := st.symbolIndex + 1 } rest).2.2) := by
  simp only [runTagged, writeArith_comp _ op hop]

/-- C4.  Across one whole translation unit the comparison label counter
only ever increases (first conjunct, with no success hypothesis) and is
never reset: for any two comparison commands of the unit — in the same
or in different modules, the decomposition is of the tagged command list
of the whole unit — the emitted chunks carry the indices
`st.symbolIndex + (comparisons before them)`, so the first gets `k1`,
the second `k2 = k1 + 1 + (comparisons between them)` > `k1`, and the
four labels `TRUE.k1`, `CONT.k1`, `TRUE.k2`, `CONT.k2` are pairwise
distinct strings. -/
theorem c4_comparison_label_freshness (st : CW) (mods : List (List Char × List VMCmd))
    (pre mid post : List (List Char × VMCmd)) (tg1 tg2 op1 op2 : List Char)
    (hop1 : isCompOp op1 = true) (hop2 : isCompOp op2 = true)
    (hdec : unitCmds mods =
      pre ++ (tg1, VMCmd.arith op1) :: (mid ++ (tg2, VMCmd.arith op2) :: post))
    (hok : (runTagged st (pre ++ (tg1, VMCmd.arith op1) :: mid)).2.2 = true) :
    st.symbolIndex ≤ (runUnit st mods).1.symbolIndex ∧
    (runUnit st mods).2.1.get? pre.length =
      some (compChunkSpliced ((lookupAL ASM_INSERT op1).getD [])
        (st.symbolIndex + compCountT pre)) ∧
    (runUnit st mods).2.1.get? (pre.length + 1 + mid.length) =
      some (compChunkSpliced ((lookupAL ASM_INSERT op2).getD [])
        (st.symbolIndex + compCountT pre + 1 + compCountT mid)) ∧
    trueLabel (st.symbolIndex + compCountT pre) ≠
      trueLabel (st.symbolIndex + compCountT pre + 1 + compCountT mid) ∧
    contLabel (st.symbolIndex + compCountT pre) ≠
      contLabel (st.symbolIndex + compCountT pre + 1 + compCountT mid) ∧
    (∀ j k : Nat, trueLabel j ≠ contLabel k) := by
  have hbr := runUnit_tagged mods st
  have hokpre : (runTagged st pre).2.2 = true :=
    runTagged_ok_prefix pre ((tg1, VMCmd.arith op1) :: mid) st hok
  have hsymA : (runTagged st pre).1.symbolIndex = st.symbolIndex + compCountT pre :=
    runTagged_ok_sym pre st hokpre
  have hsuf := runTagged_ok_suffix pre ((tg1, VMCmd.arith op1) :: mid) st hok
  rw [runTagged_cons_comp _ _ _ _ hop1] at hsuf
  simp only [] at hsuf
  have hout : (runUnit st mods).2.1 = (runTagged st (unitCmds mods)).2.1 :=
    congrArg Prod.fst hbr.1
  rw [hdec, runTagged_append pre _ st, if_pos hokpre] at hout
  simp only [] at hout
  rw [runTagged_cons_comp _ _ _ _ hop1] at hout
  simp only [] at hout
  rw [runTagged_append mid _ _, if_pos hsuf] at hout
  simp only [] at hout
  rw [runTagged_cons_comp _ _ _ _ hop2] at hout
  simp only [] at hout
  have lenA : (runTagged st pre).2.1.length = pre.length :=
    runTagged_ok_len pre st hokpre
  have lenMid : (runTagged { (runTagged st pre).1 with filename := some tg1, symbolIndex := (runTagged st pre).1.symbolIndex + 1 } mid).2.1.length = mid.length :=
    runTagged_ok_len mid _ hsuf
  have hsymB : (runTagged { (runTagged st pre).1 with filename := some tg1, symbolIndex := (runTagged st pre).1.symbolIndex + 1 } mid).1.symbolIndex =
      (runTagged st pre).1.symbolIndex + 1 + compCountT mid := by
    rw [runTagged_ok_sym mid _ hsuf]
  refine ⟨?_, ?_, ?_, trueLabel_inj _ _ (by omega), contLabel_inj _ _ (by omega),
    trueLabel_ne_contLabel⟩
  · rw [hbr.2]
    exact runTagged_sym_mono _ st
  · rw [hout, List.get?_append_right (le_of_eq lenA)]
    rw [lenA, Nat.sub_self, List.get?_cons_zero, hsymA]
  · rw [hout, List.get?_append_right (by omega)]
    rw [lenA, show pre.length + 1 + mid.length - pre.length = mid.length + 1 from by omega,
      List.get?_cons_succ, List.get?_append_right (le_of_eq lenMid), lenMid,
      Nat.sub_self, List.get?_cons_zero, hsymB, hsymA]

set_option maxRecDepth 8000 in
theorem c4_comparison_label_freshness_witness :
    (runUnit cw0 [(chs "M1", [VMCmd.arith (chs "lt")]),
        (chs "M2", [VMCmd.arith (chs "eq")])]).2.1.get? 0 =
      some (compChunkSpliced (chs "JLT") 0) ∧
    (runUnit cw0 [(chs "M1", [VMCmd.arith (chs "lt")]),
        (chs "M2", [VMCmd.arith (chs "eq")])]).2.1.get? 1 =
      some (compChunkSpliced (chs "JEQ") 1) ∧
    trueLabel 0 ≠ trueLabel 1 := by
  have h := c4_comparison_label_freshness cw0
    [(chs "M1", [VMCmd.arith (chs "lt")]), (chs "M2", [VMCmd.arith (chs "eq")])]
    [] [] [] (chs "M1") (chs "M2") (chs "lt") (chs "eq") (by decide) (by decide)
    (by decide) (by decide)
  obtain ⟨-, h1, h2, h3, -, -⟩ := h
  refine ⟨?_, ?_, ?_⟩
  · rw [show (lookupAL ASM_INSERT (chs "lt")).getD [] = chs "JLT" from by decide,
      show cw0.symbolIndex + compCountT [] = 0 from rfl,
      show ([] : List (List Char × VMCmd)).length = 0 from rfl] at h1
    exact h1
  · rw [show (lookupAL ASM_INSERT (chs "eq")).getD [] = chs "JEQ" from by decide,
      show cw0.symbolIndex + compCountT [] + 1 + compCountT [] = 1 from rfl,
      show ([] : List (List Char × VMCmd)).length + 1 +
        ([] : List (List Char × VMCmd)).length = 1 from rfl] at h2
    exact h2
  · exact h3

theorem translate_branch (s : CW) (bk : BKind) (l : List Char) :
    translateCmd s (mkBranch bk l) =
      some (s, branchChunk bk (pyStr s.functionName ++ '$' :: l)) := by
  cases bk <;> rfl

theorem runTagged_cons_branch (st : CW) (tg l : List Char) (bk : BKind)
    (rest : List (List Char × VMCmd)) :
    runTagged st ((tg, mkBranch bk l) :: rest) =
      ((runTagged { st with filename := some tg } rest).1,
       branchChunk bk (pyStr st.functionName ++ '$' :: l) ::
         (runTagged { st with filename := some tg } rest).2.1,
       (runTagged { st with filename := some tg } rest).2.2) := by
  simp only [runTagged, translate_branch]

/-- C10.  Every `label`, `goto`, and `if-goto` command of a translation
unit (the three kinds abstracted by `mkBranch`) emits its chunk around
the target `F$L`, where `F` is the function name recorded by the most
recent preceding `function` command of the whole tagged command list of
the unit — the prefix `pre` may span several modules, and nothing resets
the name at a module boundary — and where an absent function name (the
Python `None` placeholder) prints as the literal string `None`
(`pyStr none = chs "None"`). -/
theorem c10_branch_target_function (st : CW) (mods : List (List Char × List VMCmd))
    (pre post : List (List Char × VMCmd)) (tg l : List Char) (bk : BKind)
    (hdec : unitCmds mods = pre ++ (tg, mkBranch bk l) :: post)
    (hok : (runTagged st pre).2.2 = true) :
    (runUnit st mods).2.1.get? pre.length =
      some (branchChunk bk (pyStr (lastFnT st.functionName pre) ++ '$' :: l)) ∧
    pyStr none = chs "None" := by
  have hbr := runUnit_tagged mods st
  have hout : (runUnit st mods).2.1 = (runTagged st (unitCmds mods)).2.1 :=
    congrArg Prod.fst hbr.1
  rw [hdec, runTagged_append pre _ st, if_pos hok] at hout
  simp only [] at hout
  rw [runTagged_cons_branch] at hout
  simp only [] at hout
  have lenA := runTagged_ok_len pre st hok
  have hfn := runTagged_ok_fn pre st hok
  refine ⟨?_, rfl⟩
  rw [hout, List.get?_append_right (le_of_eq lenA), lenA, Nat.sub_self,
    List.get?_cons_zero, hfn]

theorem c10_branch_target_function_witness :
    (runUnit cw0 [(chs "Mod", [VMCmd.goto (chs "LOOP")])]).2.1.get? 0 =
      some (chs "@None$LOOP\n0;JMP\n") ∧
    (runUnit cw0 [(chs "A", [VMCmd.func (chs "F.g") (chs "0")]),
        (chs "B", [VMCmd.label (chs "L")])]).2.1.get? 1 =
      some (chs "(F.g$L)\n") := by
  have ha := c10_branch_target_function cw0 [(chs "Mod", [VMCmd.goto (chs "LOOP")])]
    [] [] (chs "Mod") (chs "LOOP") BKind.go (by decide) (by decide)
  have hb := c10_branch_target_function cw0
    [(chs "A", [VMCmd.func (chs "F.g") (chs "0")]), (chs "B", [VMCmd.label (chs "L")])]
    [(chs "A", VMCmd.func (chs "F.g") (chs "0"))] [] (chs "B") (chs "L") BKind.lab
    (by decide) (by decide)
  constructor
  · have h1 := ha.1
    rw [show ([] : List (List Char × VMCmd)).length = 0 from rfl,
      show branchChunk BKind.go (pyStr (lastFnT cw0.functionName []) ++ '$' :: chs "LOOP")
        = chs "@None$LOOP\n0;JMP\n" from by decide] at h1
    exact h1
  · have h2 := hb.1
    rw [show [(chs "A", VMCmd.func (chs "F.g") (chs "0"))].length = 1 from rfl,
      show branchChunk BKind.lab (pyStr (lastFnT cw0.functionName
          [(chs "A", VMCmd.func (chs "F.g") (chs "0"))]) ++ '$' :: chs "L")
        = chs "(F.g$L)\n" from by decide] at h2
    exact h2
